import Mathlib

/-!
# Verification of the structpath core

A shallow embedding of the `structpath` Rust crate: the path data model
(`types.rs`), the parser (`parse.rs`), the formatter (`format.rs`), the
accessor (`access.rs`), the mutator (`write.rs`), the tree walker
(`walk.rs`) and the variable-search iterator (`iter.rs`), together with
theorems settling the specification's claims about them.

Strings are modelled as `List Char` (`Str`); Rust byte lengths are modelled
with `byteLen` (UTF-8 sizes).  `i64`/`usize` are modelled as `Int`/`Nat`
with explicit range checks where the Rust code checks ranges (numeric
parsing).  JSON trees (`serde_json::Value`) are modelled by `Value`, with
objects as insertion-ordered association lists of unique keys, matching the
map interface the crate relies on (`get`, `insert`, iteration); numbers are
modelled as integers, which covers every number the claims and the crate's
own logic distinguish (numbers are opaque scalars to every operation here).
-/

/-- Strings as character lists, for character-by-character parsing. -/
abbrev Str := List Char

/-- Convert a Lean string literal to the `Str` model. -/
def chars (s : String) : Str := s.data

/-- UTF-8 byte length of one character followed by none: Rust `String::len`
is a byte count, modelled via `Char.utf8Size`. -/
def byteLen (s : Str) : Nat := (s.map Char.utf8Size).sum

/-- The five characters the formatter escapes and the parser treats as
structural (`format.rs::escape_special_chars`). -/
def isSpecialChar (c : Char) : Bool :=
  c = '.' || c = '[' || c = ']' || c = '\\' || c = '#'

/-- ASCII decimal digit test, as in Rust's integer `FromStr`. -/
def isDigitChar (c : Char) : Bool := '0' ≤ c && c ≤ '9'

/-- Numeric value of an ASCII digit. -/
def digitVal (c : Char) : Nat := c.toNat - 48

/-- Accumulate a digit string left-to-right, as Rust's `from_str_radix`. -/
def natFromDigits (ds : Str) : Nat := ds.foldl (fun a c => 10 * a + digitVal c) 0

/-- Smallest `i64` value. -/
def i64Min : Int := -(2 ^ 63)

/-- Largest `i64` value. -/
def i64Max : Int := 2 ^ 63 - 1

/-- Largest `usize` value (the crate targets 64-bit). -/
def usizeMax : Nat := 2 ^ 64 - 1

/-- Rust `str::parse::<i64>()`: optional sign, at least one digit, all
digits, result within the `i64` range (overflow is an error). -/
def i64Parse (s : Str) : Option Int :=
  let (neg, ds) :=
    match s with
    | '-' :: rest => (true, rest)
    | '+' :: rest => (false, rest)
    | _ => (false, s)
  if ds.isEmpty then none
  else if ds.all isDigitChar then
    let v : Int := if neg then -(natFromDigits ds : Int) else (natFromDigits ds : Int)
    if i64Min ≤ v ∧ v ≤ i64Max then some v else none
  else none

/-- Rust `str::parse::<usize>()`: optional `+`, at least one digit, all
digits, result within the `usize` range. -/
def u64Parse (s : Str) : Option Nat :=
  let ds :=
    match s with
    | '+' :: rest => rest
    | _ => s
  if ds.isEmpty then none
  else if ds.all isDigitChar then
    let n := natFromDigits ds
    if n ≤ usizeMax then some n else none
  else none

/-- The ASCII digit character for `n < 10`. -/
def natDigitChar (n : Nat) : Char := Char.ofNat (48 + n)

/-- Structural helper for `natDigits`: the fuel always exceeds `n`, so the
`0` case is unreachable. -/
def natDigitsAux : Nat → Nat → Str
  | 0, _ => []
  | fuel + 1, n =>
      if n < 10 then [natDigitChar n]
      else natDigitsAux fuel (n / 10) ++ [natDigitChar (n % 10)]

/-- Decimal digits of a natural number (Rust `Display` for unsigned ints). -/
def natDigits (n : Nat) : Str := natDigitsAux (n + 1) n

theorem natDigitsAux_fuel : ∀ (f1 : Nat) (n : Nat), n < f1 → ∀ f2, n < f2 →
    natDigitsAux f1 n = natDigitsAux f2 n := by
  intro f1
  induction f1 with
  | zero => intro n h; omega
  | succ f ih =>
      intro n h f2 h2
      cases f2 with
      | zero => omega
      | succ g =>
          simp only [natDigitsAux]
          by_cases h10 : n < 10
          · simp [h10]
          · rw [if_neg h10, if_neg h10,
              ih (n / 10) (by omega) g (by omega)]

/-- The recursion `natDigits` satisfies. -/
theorem natDigits_eq (n : Nat) :
    natDigits n = if n < 10 then [natDigitChar n]
      else natDigits (n / 10) ++ [natDigitChar (n % 10)] := by
  by_cases h10 : n < 10
  · unfold natDigits
    simp [natDigitsAux, h10]
  · rw [if_neg h10]
    unfold natDigits
    rw [show natDigitsAux (n + 1) n =
      natDigitsAux n (n / 10) ++ [natDigitChar (n % 10)] from by
        simp only [natDigitsAux]
        rw [if_neg h10]]
    rw [natDigitsAux_fuel n (n / 10) (by omega) (n / 10 + 1) (by omega)]

/-- Rust `i64::to_string`: decimal digits, `-`-prefixed when negative. -/
def intRender (i : Int) : Str :=
  if i < 0 then '-' :: natDigits (-i).toNat else natDigits i.toNat

/-- `types.rs::SegmentKey`: a literal string key or an integer key. -/
inductive SegmentKey where
  | string (s : Str)
  | int (i : Int)
deriving DecidableEq, Repr

/-- `types.rs::Segment`: one step of a path. -/
inductive Segment where
  | key (k : SegmentKey)
  | index (i : Nat)
  | keyVariable (name : Str)
  | indexVariable (name : Str)
deriving DecidableEq, Repr

/-- `types.rs::StructpathError`: the closed error taxonomy. -/
inductive StructpathError where
  | parseError (msg : Str)
  | duplicateVariable (name : Str)
  | notFound
  | invalidPath (expected found : Str)
  | indexOutOfBounds (msg : Str)
  | missingVariable (name : Str)
  | invalidVariableValue (value : Str)
deriving DecidableEq, Repr

/-- `types.rs::Structpath`: a segment sequence plus the set of variable
names already used.  The Rust `HashSet` is modelled as the list of names in
registration order; every path the crate constructs registers names in
segment order, so list equality coincides with the Rust equality on
reachable values. -/
structure Structpath where
  segments : List Segment
  variable_names : List Str
deriving DecidableEq, Repr

namespace Structpath

/-- `Structpath::new`. -/
def new : Structpath := ⟨[], []⟩

/-- `Structpath::push_string_key`. -/
def push_string_key (p : Structpath) (key : Str) : Structpath :=
  { p with segments := p.segments ++ [.key (.string key)] }

/-- `Structpath::push_int_key`. -/
def push_int_key (p : Structpath) (key : Int) : Structpath :=
  { p with segments := p.segments ++ [.key (.int key)] }

/-- `Structpath::push_index`. -/
def push_index (p : Structpath) (index : Nat) : Structpath :=
  { p with segments := p.segments ++ [.index index] }

/-- `Structpath::push_key_variable`: fails on a duplicate name, otherwise
registers the name and appends the segment. -/
def push_key_variable (p : Structpath) (name : Str) : Except StructpathError Structpath :=
  if name ∈ p.variable_names then .error (.duplicateVariable name)
  else .ok ⟨p.segments ++ [.keyVariable name], p.variable_names ++ [name]⟩

/-- `Structpath::push_index_variable`. -/
def push_index_variable (p : Structpath) (name : Str) : Except StructpathError Structpath :=
  if name ∈ p.variable_names then .error (.duplicateVariable name)
  else .ok ⟨p.segments ++ [.indexVariable name], p.variable_names ++ [name]⟩

/-- `segment.starts_with('#') && segment.len() > 1` (byte length; `#` is one
byte, so this holds exactly when a second character follows the `#`). -/
def startsWithHashLong : Str → Bool
  | '#' :: _ :: _ => true
  | _ => false

/-- `parse.rs::process_segment`: classify a finished segment text. -/
def process_segment (p : Structpath) (segment : Str)
    (first_char_escaped is_escaped_segment is_variable in_brackets : Bool) :
    Except StructpathError Structpath :=
  if is_variable && startsWithHashLong segment then
    let var_name := segment.drop 1
    if in_brackets then p.push_index_variable var_name
    else p.push_key_variable var_name
  else if first_char_escaped || is_escaped_segment then
    .ok (p.push_string_key segment)
  else
    match i64Parse segment with
    | some int_key => .ok (p.push_int_key int_key)
    | none => .ok (p.push_string_key segment)

/-- The parser's loop state (`parse.rs::parse`, local variables). -/
structure PState where
  path : Structpath
  cur : Str
  inB : Bool
  esc : Bool
  ies : Bool
  fce : Bool
  isv : Bool
deriving DecidableEq, Repr

/-- Initial parser state. -/
def initState : PState := ⟨Structpath.new, [], false, false, false, false, false⟩

/-- One iteration of the parser's `for c in chars` loop. -/
def pstep (st : PState) (c : Char) : Except StructpathError PState :=
  if st.esc then
    let cur' := st.cur ++ [c]
    .ok { st with cur := cur', esc := false,
                  fce := if byteLen cur' = 1 then true else st.fce,
                  ies := true }
  else if c = '\\' then .ok { st with esc := true }
  else if c = '.' && !st.inB then
    if st.cur.isEmpty then .ok st
    else do
      let p' ← process_segment st.path st.cur st.fce st.ies st.isv st.inB
      .ok { st with path := p', cur := [], fce := false, ies := false, isv := false }
  else if c = '[' && !st.inB then
    if st.cur.isEmpty then .ok { st with inB := true }
    else do
      let p' ← process_segment st.path st.cur st.fce st.ies st.isv st.inB
      .ok { st with path := p', cur := [], fce := false, ies := false, isv := false,
                    inB := true }
  else if c = ']' && st.inB then do
    let p' ←
      if startsWithHashLong st.cur then st.path.push_index_variable (st.cur.drop 1)
      else
        match u64Parse st.cur with
        | some index => .ok (st.path.push_index index)
        | none => .error (.parseError (chars "Invalid index: " ++ st.cur))
    .ok { st with path := p', cur := [], fce := false, ies := false, isv := false,
                  inB := false }
  else if c = '#' && st.cur.isEmpty && !st.inB then
    .ok { st with isv := true, cur := ['#'] }
  else .ok { st with cur := st.cur ++ [c] }

/-- `parse.rs::parse`: strip an optional leading `$`, run the loop, flush
the trailing segment, reject an unclosed bracket. -/
def parse (path_str : Str) : Except StructpathError Structpath := do
  let cs := match path_str with
            | '$' :: rest => rest
            | _ => path_str
  let st ← cs.foldlM pstep initState
  let p ←
    if st.cur.isEmpty then .ok st.path
    else process_segment st.path st.cur st.fce st.ies st.isv st.inB
  if st.inB then .error (.parseError (chars "Unclosed bracket"))
  else .ok p

/-- `format.rs::escape_special_chars`. -/
def escape_special_chars (s : Str) : Str :=
  (s.map (fun c => if isSpecialChar c then ['\\', c] else [c])).flatten

/-- `format.rs::format_string_key`, without the shared `result`/`first`
threading: the text this key contributes after its separator. -/
def renderStringKey (s : Str) : Str :=
  (if (i64Parse s).isSome then ['\\'] else []) ++ escape_special_chars s

/-- The text one segment appends to the output, given whether a `.`-joined
segment has already been emitted (`format.rs::to_string`'s loop body). -/
def renderSeg (first : Bool) : Segment → Str
  | .key (.string s) => (if first then [] else ['.']) ++ renderStringKey s
  | .key (.int i) => (if first then [] else ['.']) ++ intRender i
  | .index n => '[' :: natDigits n ++ [']']
  | .keyVariable name => (if first then [] else ['.']) ++ '#' :: name
  | .indexVariable name => '[' :: '#' :: name ++ [']']

/-- Whether the `first` flag is still set after rendering this segment:
only `Key` and `KeyVariable` segments clear it. -/
def firstAfter (first : Bool) : Segment → Bool
  | .key _ => false
  | .keyVariable _ => false
  | _ => first

/-- Render a segment list with the `first` flag threaded through. -/
def renderSegs (first : Bool) : List Segment → Str
  | [] => []
  | seg :: rest => renderSeg first seg ++ renderSegs (firstAfter first seg) rest

/-- `format.rs::to_string`: `$` followed by the rendered segments (an empty
path renders as just `$`, which the recursion also yields). -/
def to_string (p : Structpath) : Str := '$' :: renderSegs true p.segments

end Structpath

/-- The JSON-like tree model (`serde_json::Value` as the crate consumes it):
objects are insertion-ordered association lists with unique keys, and
numbers are modelled as integers (every operation here treats numbers as
opaque scalars). -/
inductive Value where
  | null
  | bool (b : Bool)
  | num (n : Int)
  | str (s : Str)
  | arr (elems : List Value)
  | obj (entries : List (Str × Value))
deriving Repr

mutual

/-- Decidable equality on values (structural, as Rust `PartialEq` on
`serde_json::Value` with the association-list object model). -/
def Value.decEq : (a b : Value) → Decidable (a = b)
  | .null, .null => isTrue rfl
  | .bool x, .bool y =>
      match inferInstanceAs (Decidable (x = y)) with
      | isTrue h => isTrue (h ▸ rfl)
      | isFalse h => isFalse (fun hh => h (Value.bool.inj hh))
  | .num x, .num y =>
      match inferInstanceAs (Decidable (x = y)) with
      | isTrue h => isTrue (h ▸ rfl)
      | isFalse h => isFalse (fun hh => h (Value.num.inj hh))
  | .str x, .str y =>
      match inferInstanceAs (Decidable (x = y)) with
      | isTrue h => isTrue (h ▸ rfl)
      | isFalse h => isFalse (fun hh => h (Value.str.inj hh))
  | .arr x, .arr y =>
      match Value.decEqList x y with
      | isTrue h => isTrue (h ▸ rfl)
      | isFalse h => isFalse (fun hh => h (Value.arr.inj hh))
  | .obj x, .obj y =>
      match Value.decEqEntries x y with
      | isTrue h => isTrue (h ▸ rfl)
      | isFalse h => isFalse (fun hh => h (Value.obj.inj hh))
  | .null, .bool _ | .null, .num _ | .null, .str _ | .null, .arr _ | .null, .obj _
  | .bool _, .null | .bool _, .num _ | .bool _, .str _ | .bool _, .arr _ | .bool _, .obj _
  | .num _, .null | .num _, .bool _ | .num _, .str _ | .num _, .arr _ | .num _, .obj _
  | .str _, .null | .str _, .bool _ | .str _, .num _ | .str _, .arr _ | .str _, .obj _
  | .arr _, .null | .arr _, .bool _ | .arr _, .num _ | .arr _, .str _ | .arr _, .obj _
  | .obj _, .null | .obj _, .bool _ | .obj _, .num _ | .obj _, .str _ | .obj _, .arr _ =>
      isFalse (fun h => Value.noConfusion h)

/-- Decidable equality on value lists. -/
def Value.decEqList : (a b : List Value) → Decidable (a = b)
  | [], [] => isTrue rfl
  | [], _ :: _ => isFalse (fun h => List.noConfusion h)
  | _ :: _, [] => isFalse (fun h => List.noConfusion h)
  | x :: xs, y :: ys =>
      match Value.decEq x y, Value.decEqList xs ys with
      | isTrue h₁, isTrue h₂ => isTrue (h₁ ▸ h₂ ▸ rfl)
      | isFalse h₁, _ => isFalse (fun h => h₁ (List.cons.inj h).1)
      | _, isFalse h₂ => isFalse (fun h => h₂ (List.cons.inj h).2)

/-- Decidable equality on object entry lists. -/
def Value.decEqEntries : (a b : List (Str × Value)) → Decidable (a = b)
  | [], [] => isTrue rfl
  | [], _ :: _ => isFalse (fun h => List.noConfusion h)
  | _ :: _, [] => isFalse (fun h => List.noConfusion h)
  | (k, v) :: xs, (k', v') :: ys =>
      match inferInstanceAs (Decidable (k = k')), Value.decEq v v', Value.decEqEntries xs ys with
      | isTrue h₀, isTrue h₁, isTrue h₂ =>
          isTrue (by rw [h₀, h₁, h₂])
      | isFalse h₀, _, _ =>
          isFalse (fun h => h₀ (congrArg Prod.fst (List.cons.inj h).1))
      | _, isFalse h₁, _ =>
          isFalse (fun h => h₁ (congrArg Prod.snd (List.cons.inj h).1))
      | _, _, isFalse h₂ => isFalse (fun h => h₂ (List.cons.inj h).2)

end

instance : DecidableEq Value := Value.decEq

namespace Value

/-- `serde_json::Map::get`. -/
def lookupObj : List (Str × Value) → Str → Option Value
  | [], _ => none
  | (k', v) :: rest, k => if k' = k then some v else lookupObj rest k

/-- `serde_json::Map::insert`: replace in place, or append a new key. -/
def insertObj : List (Str × Value) → Str → Value → List (Str × Value)
  | [], k, v => [(k, v)]
  | (k', v') :: rest, k, v =>
      if k' = k then (k, v) :: rest else (k', v') :: insertObj rest k v

/-- `Value::is_object`. -/
def isObj : Value → Bool
  | .obj _ => true
  | _ => false

/-- `Value::is_array`. -/
def isArr : Value → Bool
  | .arr _ => true
  | _ => false

end Value

/-- Models `format!("{:?}", value)`, the `Debug` rendering serde_json (an
external collaborator) gives a value; the crate embeds it in the `found`
field of `InvalidPath` and no claim or operation ever inspects this text,
only the error's constructor and its `expected` field. -/
def valueDebug : Value → Str
  | .null => chars "Null"
  | .bool true => chars "Bool(true)"
  | .bool false => chars "Bool(false)"
  | .num n => chars "Number(" ++ intRender n ++ chars ")"
  | .str s => chars "String(\"" ++ s ++ chars "\")"
  | .arr _ => chars "Array [...]"
  | .obj _ => chars "Object {...}"

/-- Caller-supplied variable bindings (`HashMap<String, String>`), as an
association list with `HashMap::get` lookup. -/
abbrev VarMap := List (Str × Str)

/-- `HashMap::get` on a binding map. -/
def lookupVar : VarMap → Str → Option Str
  | [], _ => none
  | (k', v) :: rest, k => if k' = k then some v else lookupVar rest k

/-- Whether a segment is a variable segment (`access.rs`'s
`matches!(segment, KeyVariable(_) | IndexVariable(_))`). -/
def segHasVariable : Segment → Bool
  | .keyVariable _ => true
  | .indexVariable _ => true
  | _ => false

/-- The string an object lookup uses for a key (`Int` keys use their
decimal string). -/
def segKeyStr : SegmentKey → Str
  | .string s => s
  | .int i => intRender i

namespace Structpath

/-- `access.rs::get_by_key`. -/
def get_by_key (data : Value) (key : SegmentKey) : Except StructpathError Value :=
  match data with
  | .obj map =>
      match Value.lookupObj map (segKeyStr key) with
      | some v => .ok v
      | none => .error .notFound
  | _ => .error (.invalidPath (chars "object") (valueDebug data))

/-- `access.rs::get_by_string_key`. -/
def get_by_string_key (data : Value) (key : Str) : Except StructpathError Value :=
  match data with
  | .obj map =>
      match Value.lookupObj map key with
      | some v => .ok v
      | none => .error .notFound
  | _ => .error (.invalidPath (chars "object") (valueDebug data))

/-- `access.rs::get_by_index`. -/
def get_by_index (data : Value) (idx : Nat) : Except StructpathError Value :=
  match data with
  | .arr a =>
      match a[idx]? with
      | some v => .ok v
      | none =>
          .error (.indexOutOfBounds
            (chars "Index " ++ natDigits idx ++
             chars " out of bounds for array of length " ++ natDigits a.length))
  | _ => .error (.invalidPath (chars "array") (valueDebug data))

/-- The segment-by-segment traversal of `access.rs::get` (its `for` loop);
`vars` is the unwrapped binding map, only consulted at variable segments. -/
def getLoop : List Segment → Value → VarMap → Except StructpathError Value
  | [], cur, _ => .ok cur
  | .key k :: rest, cur, vars => do getLoop rest (← get_by_key cur k) vars
  | .index idx :: rest, cur, vars => do getLoop rest (← get_by_index cur idx) vars
  | .keyVariable name :: rest, cur, vars =>
      match lookupVar vars name with
      | none => .error (.missingVariable name)
      | some v => do getLoop rest (← get_by_string_key cur v) vars
  | .indexVariable name :: rest, cur, vars =>
      match lookupVar vars name with
      | none => .error (.missingVariable name)
      | some v =>
          match u64Parse v with
          | none => .error (.invalidVariableValue v)
          | some idx => do getLoop rest (← get_by_index cur idx) vars

/-- `access.rs::get`: upfront variable-context check, then the loop.  The
Rust code's `vars.unwrap()` only runs at variable segments, which the check
guarantees occur only when `vars` is present, so passing `vars.getD []`
into the loop is a faithful rendering. -/
def get (p : Structpath) (data : Value) (vars : Option VarMap) :
    Except StructpathError Value :=
  if p.segments.any segHasVariable && vars.isNone then
    .error (.parseError
      (chars "Path contains variables, but no variable context was provided."))
  else getLoop p.segments data (vars.getD [])

end Structpath

namespace Structpath

/-- The empty container `write.rs` creates for a following segment
(object for key-like, array for index-like next segments). -/
def emptyForNext : Segment → Value
  | .key _ => .obj []
  | .keyVariable _ => .obj []
  | .index _ => .arr []
  | .indexVariable _ => .arr []

/-- `ensure_next_segment_exists`'s coercion of the looked-up slot: keep it
if it already is the container kind the next segment needs, else replace it
with an empty container of that kind. -/
def coerceForNext (child : Value) (next : Segment) : Value :=
  match next with
  | .key _ | .keyVariable _ => if child.isObj then child else .obj []
  | .index _ | .indexVariable _ => if child.isArr then child else .arr []

/-- Pad an array with `Null` until `idx` is in range
(`while arr.len() <= idx { arr.push(Value::Null) }`). -/
def padNull (a : List Value) (idx : Nat) : List Value :=
  a ++ List.replicate (idx + 1 - a.length) Value.null

/-- `write.rs::write_by_key` (its `Result` is always `Ok`). -/
def write_by_key (data : Value) (key : SegmentKey) (value : Value) : Value :=
  let key_str := segKeyStr key
  match data with
  | .obj map => .obj (Value.insertObj map key_str value)
  | _ => .obj [(key_str, value)]

/-- `write.rs::write_by_index` (its `Result` is always `Ok`). -/
def write_by_index (data : Value) (idx : Nat) (value : Value) : Value :=
  match data with
  | .arr a => .arr ((padNull a idx).set idx value)
  | _ => .arr (List.replicate idx Value.null ++ [value])

/-- Resolve one segment of a `write` to a concrete key or index, exactly as
the loop in `write.rs::write` does (variables through the binding map;
`KeyVariable` yields a `String` key). -/
def resolveSeg (seg : Segment) (vars : VarMap) :
    Except StructpathError (SegmentKey ⊕ Nat) :=
  match seg with
  | .key k => .ok (.inl k)
  | .index idx => .ok (.inr idx)
  | .keyVariable name =>
      match lookupVar vars name with
      | none => .error (.missingVariable name)
      | some v => .ok (.inl (.string v))
  | .indexVariable name =>
      match lookupVar vars name with
      | none => .error (.missingVariable name)
      | some v =>
          match u64Parse v with
          | none => .error (.invalidVariableValue v)
          | some idx => .ok (.inr idx)

/-- The traversal loop of `write.rs::write` for a non-empty segment list,
as a function from the current subtree to the updated subtree.  The Rust
loop threads a `&mut` cursor through the tree; here each recursive call
returns the updated child, which is plugged back where the cursor pointed:

* last segment: `write_by_key` / `write_by_index`;
* `ensure_next_segment_exists` on an object: create the key with `Null` if
  absent, coerce the slot to the container kind the next segment needs,
  recurse into it;
* `ensure_next_segment_exists` on a non-object: replace the current
  location by a fresh object holding one empty container of the required
  kind (its unreachable `Err` branch disappears in this rendering);
* `ensure_array_index_exists` on an array: pad with `Null` up to `idx` and
  recurse into slot `idx` (this helper ignores the next segment);
* `ensure_array_index_exists` on a non-array: replace the current location
  by `idx + 1` `Null`s and recurse into the last one. -/
def writeLoop (cur : Value) (segs : List Segment) (value : Value)
    (vars : VarMap) : Except StructpathError Value :=
  match segs with
  | [] => .ok cur
  | [seg] => do
      match ← resolveSeg seg vars with
      | .inl k => .ok (write_by_key cur k value)
      | .inr idx => .ok (write_by_index cur idx value)
  | seg :: next :: rest => do
      match ← resolveSeg seg vars with
      | .inl k =>
          let key_str := segKeyStr k
          match cur with
          | .obj map =>
              let map₁ := if (Value.lookupObj map key_str).isSome then map
                          else Value.insertObj map key_str .null
              let child := (Value.lookupObj map₁ key_str).getD .null
              let child₁ := coerceForNext child next
              let r ← writeLoop child₁ (next :: rest) value vars
              .ok (.obj (Value.insertObj map₁ key_str r))
          | _ =>
              let r ← writeLoop (emptyForNext next) (next :: rest) value vars
              .ok (.obj [(key_str, r)])
      | .inr idx =>
          match cur with
          | .arr a =>
              let a₁ := padNull a idx
              let child := a₁.getD idx .null
              let r ← writeLoop child (next :: rest) value vars
              .ok (.arr (a₁.set idx r))
          | _ =>
              let r ← writeLoop .null (next :: rest) value vars
              .ok (.arr ((List.replicate (idx + 1) Value.null).set idx r))

/-- `write.rs::write`.  `data` is the caller's optional mutable tree slot;
the first component is the returned `Result`, the second the slot's
contents after the call.  The zero-segment case returns before the
mirroring assignment at the end of the Rust function, so the slot keeps its
old contents there; on every other success the slot receives the result. -/
def write (p : Structpath) (data : Option Value) (value : Value)
    (vars : Option VarMap) : Except StructpathError Value × Option Value :=
  let root_value := data.getD Value.null
  if p.segments.any segHasVariable && vars.isNone then
    (.error (.parseError
      (chars "Path contains variables, but no variable context was provided.")),
     data)
  else if p.segments.isEmpty then
    (.ok value, data)
  else
    match writeLoop root_value p.segments value (vars.getD []) with
    | .ok r => (.ok r, data.map (fun _ => r))
    | .error e => (.error e, data)

end Structpath

mutual

/-- Total node count of a tree: every scalar, array and object, the root
included (the `N` of the walker-completeness property). -/
def sizeV : Value → Nat
  | .arr a => 1 + sizeElems a
  | .obj m => 1 + sizeEntries m
  | _ => 1

/-- Sum of `sizeV` over array elements. -/
def sizeElems : List Value → Nat
  | [] => 0
  | v :: rest => sizeV v + sizeElems rest

/-- Sum of `sizeV` over object entry values. -/
def sizeEntries : List (Str × Value) → Nat
  | [] => 0
  | e :: rest => sizeV e.2 + sizeEntries rest

end

namespace Structpath

/-- The object-descent segment `walk.rs` appends: a key whose full text
parses as an `i64` becomes an `Int` key, otherwise a `String` key. -/
def walkKeySeg (key : Str) : Segment :=
  match i64Parse key with
  | some int_key => .key (.int int_key)
  | none => .key (.string key)

/-- One entry of the walker's stack (`walk.rs::WalkerItem`). -/
structure WalkItem where
  path : Structpath
  value : Value
  processed : Bool

/-- Append one segment to a path, as the walker's `push_int_key` /
`push_string_key` / `push_index` calls do (never variables). -/
def pushSeg (p : Structpath) (seg : Segment) : Structpath :=
  { p with segments := p.segments ++ [seg] }

/-- Termination measure of one stack entry: a processed entry only has to
be emitted; an unprocessed entry may expand into its children plus a
processed copy of itself. -/
def walkItemMeasure (item : WalkItem) : Nat :=
  if item.processed then 1 else 2 * sizeV item.value

/-- Termination measure of the walker's whole stack. -/
def walkMeasure (stack : List WalkItem) : Nat :=
  (stack.map walkItemMeasure).sum

/-- The unprocessed child entries an object node pushes (front of stack in
entry order, as the Rust code's reversed `push_front` loop produces). -/
def objChildren (p : Structpath) : List (Str × Value) → List WalkItem
  | [] => []
  | (k, v) :: rest => ⟨pushSeg p (walkKeySeg k), v, false⟩ :: objChildren p rest

/-- The unprocessed child entries an array node pushes, `j` the index of
the first remaining element. -/
def arrChildren (p : Structpath) (j : Nat) : List Value → List WalkItem
  | [] => []
  | v :: rest => ⟨p.push_index j, v, false⟩ :: arrChildren p (j + 1) rest

theorem objChildren_measure (p : Structpath) (m : List (Str × Value)) :
    walkMeasure (objChildren p m) = 2 * sizeEntries m := by
  induction m with
  | nil => simp [objChildren, walkMeasure, sizeEntries]
  | cons e rest ih =>
      simp [objChildren, walkMeasure, walkItemMeasure, sizeEntries,
        List.map_cons, List.sum_cons] at ih ⊢
      omega

theorem arrChildren_measure (p : Structpath) (a : List Value) :
    ∀ j, walkMeasure (arrChildren p j a) = 2 * sizeElems a := by
  induction a with
  | nil => intro j; simp [arrChildren, walkMeasure, sizeElems]
  | cons v rest ih =>
      intro j
      have h := ih (j + 1)
      simp [arrChildren, walkMeasure, walkItemMeasure, sizeElems,
        List.map_cons, List.sum_cons] at h ⊢
      omega

theorem sizeV_pos (v : Value) : 1 ≤ sizeV v := by
  cases v <;> simp [sizeV]

/-- Drain `walk.rs::Walker::next` until exhaustion: the full emission list.
An unprocessed container node is replaced on the stack front by its
children followed by a processed copy of itself; a scalar or a processed
node is emitted. -/
def walkLoop (stack : List WalkItem) : List (Structpath × Value) :=
  match stack with
  | [] => []
  | item :: rest =>
      if item.processed then (item.path, item.value) :: walkLoop rest
      else
        match hv : item.value with
        | .obj m =>
            walkLoop (objChildren item.path m ++ (⟨item.path, item.value, true⟩ :: rest))
        | .arr a =>
            walkLoop (arrChildren item.path 0 a ++ (⟨item.path, item.value, true⟩ :: rest))
        | _ => (item.path, item.value) :: walkLoop rest
termination_by walkMeasure stack
decreasing_by
  · simp [walkMeasure, walkItemMeasure, List.map_cons, List.sum_cons, *]
  · have hm := objChildren_measure item.path m
    simp [walkMeasure, walkItemMeasure, List.map_append, List.sum_append,
      List.map_cons, List.sum_cons, hv, sizeV, *] at hm ⊢
    omega
  · have hm := arrChildren_measure item.path a 0
    simp [walkMeasure, walkItemMeasure, List.map_append, List.sum_append,
      List.map_cons, List.sum_cons, hv, sizeV, *] at hm ⊢
    omega
  · have hp := sizeV_pos item.value
    simp [walkMeasure, walkItemMeasure, List.map_cons, List.sum_cons, *]
    rw [← hv]
    omega

/-- `walk.rs::new_walker`, drained to a list. -/
def walkList (data : Value) : List (Structpath × Value) :=
  walkLoop [⟨Structpath.new, data, false⟩]

end Structpath

namespace Structpath

/-- One pending branch of the variable search
(`iter.rs::VariableIterState`). -/
structure IterState where
  value : Value
  idx : Nat
  bindings : List (Str × Value)
deriving DecidableEq, Repr

/-- The child branches one step of the search pushes for a non-finished
state (`iter.rs::VariableIterator::next`, the `match current_segment`
body): literal keys and indices are deterministic transitions that drop
the branch when absent, `KeyVariable` branches once per object entry,
`IndexVariable` once per array element.  The accumulated bindings are a
`HashMap<String, Value>` built by `insert`; all branches insert variables
in segment order, so the association-list model's equality coincides with
map equality for every reachable binding set. -/
def iterChildren (segs : List Segment) (st : IterState) : List IterState :=
  match segs[st.idx]? with
  | none => []
  | some (.key (.string key)) =>
      match st.value with
      | .obj map =>
          match Value.lookupObj map key with
          | some next_value => [⟨next_value, st.idx + 1, st.bindings⟩]
          | none => []
      | _ => []
  | some (.key (.int key)) =>
      match st.value with
      | .obj map =>
          match Value.lookupObj map (intRender key) with
          | some next_value => [⟨next_value, st.idx + 1, st.bindings⟩]
          | none => []
      | _ => []
  | some (.index idx) =>
      match st.value with
      | .arr a =>
          match a[idx]? with
          | some next_value => [⟨next_value, st.idx + 1, st.bindings⟩]
          | none => []
      | _ => []
  | some (.keyVariable name) =>
      match st.value with
      | .obj map =>
          map.map (fun e =>
            ⟨e.2, st.idx + 1, Value.insertObj st.bindings name (.str e.1)⟩)
      | _ => []
  | some (.indexVariable name) =>
      match st.value with
      | .arr a =>
          a.enum.map (fun p =>
            ⟨p.2, st.idx + 1, Value.insertObj st.bindings name (.num p.1)⟩)
      | _ => []

/-- Termination measure of one pending branch. -/
def iterStateMeasure (len : Nat) (st : IterState) : Nat :=
  (sizeV st.value + 1) ^ (len - st.idx + 1)

/-- Termination measure of the whole worklist. -/
def iterQueueMeasure (len : Nat) (q : List IterState) : Nat :=
  (q.map (iterStateMeasure len)).sum

theorem lookupObj_size (m : List (Str × Value)) (k : Str) (v : Value)
    (h : Value.lookupObj m k = some v) : sizeV v ≤ sizeEntries m := by
  induction m with
  | nil => simp [Value.lookupObj] at h
  | cons e rest ih =>
      simp only [Value.lookupObj] at h
      by_cases hk : e.1 = k
      · rw [if_pos hk] at h
        cases h
        simp [sizeEntries]
      · rw [if_neg hk] at h
        have := ih h
        simp [sizeEntries]
        omega

theorem getElem?_sizeElems (a : List Value) (i : Nat) (v : Value)
    (h : a[i]? = some v) : sizeV v ≤ sizeElems a := by
  induction a generalizing i with
  | nil => simp at h
  | cons x rest ih =>
      cases i with
      | zero => simp at h; cases h; simp [sizeElems]
      | succ j =>
          simp at h
          have := ih j h
          simp [sizeElems]
          omega

theorem entries_pow_sum (r K : Nat) (m : List (Str × Value))
    (hK : sizeEntries m ≤ K) :
    ((m.map (fun e => (sizeV e.2 + 1) ^ r)).sum) ≤ sizeEntries m * (K + 1) ^ r := by
  induction m with
  | nil => simp [sizeEntries]
  | cons e rest ih =>
      simp only [sizeEntries, List.map_cons, List.sum_cons] at hK ⊢
      have h1 : sizeV e.2 + 1 ≤ K + 1 := by
        have := sizeV_pos e.2
        omega
      have h2 : (sizeV e.2 + 1) ^ r ≤ (K + 1) ^ r := Nat.pow_le_pow_left h1 r
      have h3 := ih (by omega)
      have h4 : 1 ≤ sizeV e.2 := sizeV_pos e.2
      calc (sizeV e.2 + 1) ^ r + (rest.map (fun e => (sizeV e.2 + 1) ^ r)).sum
          ≤ (K + 1) ^ r + sizeEntries rest * (K + 1) ^ r := by omega
        _ = (1 + sizeEntries rest) * (K + 1) ^ r := by ring
        _ ≤ (sizeV e.2 + sizeEntries rest) * (K + 1) ^ r := by
              exact Nat.mul_le_mul_right _ (by omega)

theorem elems_pow_sum (r K : Nat) (a : List Value) (hK : sizeElems a ≤ K) :
    ((a.map (fun v => (sizeV v + 1) ^ r)).sum) ≤ sizeElems a * (K + 1) ^ r := by
  induction a with
  | nil => simp [sizeElems]
  | cons v rest ih =>
      simp only [sizeElems, List.map_cons, List.sum_cons] at hK ⊢
      have h1 : sizeV v + 1 ≤ K + 1 := by
        have := sizeV_pos v
        omega
      have h2 : (sizeV v + 1) ^ r ≤ (K + 1) ^ r := Nat.pow_le_pow_left h1 r
      have h3 := ih (by omega)
      have h4 : 1 ≤ sizeV v := sizeV_pos v
      calc (sizeV v + 1) ^ r + (rest.map (fun v => (sizeV v + 1) ^ r)).sum
          ≤ (K + 1) ^ r + sizeElems rest * (K + 1) ^ r := by omega
        _ = (1 + sizeElems rest) * (K + 1) ^ r := by ring
        _ ≤ (sizeV v + sizeElems rest) * (K + 1) ^ r := by
              exact Nat.mul_le_mul_right _ (by omega)

theorem pow_det_child_lt (c P r : Nat) (hc : c + 1 ≤ P) (hr : 1 ≤ r) :
    (c + 1) ^ r < (P + 1) ^ (r + 1) :=
  calc (c + 1) ^ r ≤ P ^ r := Nat.pow_le_pow_left hc r
    _ < (P + 1) ^ r := Nat.pow_lt_pow_left (by omega) (by omega)
    _ ≤ (P + 1) ^ (r + 1) := Nat.pow_le_pow_right (by omega) (by omega)

theorem pow_branch_lt (K r : Nat) (hr : 1 ≤ r) :
    K * (K + 1) ^ r < (K + 2) ^ (r + 1) :=
  calc K * (K + 1) ^ r < (K + 1) * (K + 1) ^ r := by
        have hp : 0 < (K + 1) ^ r := Nat.pos_pow_of_pos r (by omega)
        exact (Nat.mul_lt_mul_right hp).mpr (by omega)
    _ = (K + 1) ^ (r + 1) := by ring
    _ ≤ (K + 2) ^ (r + 1) := Nat.pow_le_pow_left (by omega) _

theorem iterChildren_measure_lt (segs : List Segment) (st : IterState)
    (h : st.idx < segs.length) :
    iterQueueMeasure segs.length (iterChildren segs st) <
      iterStateMeasure segs.length st := by
  have hr : segs.length - (st.idx + 1) + 1 = segs.length - st.idx := by omega
  have hrpos : 1 ≤ segs.length - st.idx := by omega
  have hMpos : 0 < iterStateMeasure segs.length st := by
    unfold iterStateMeasure
    positivity
  unfold iterChildren
  cases hseg : segs[st.idx]? with
  | none => simpa [iterQueueMeasure] using hMpos
  | some seg =>
    cases seg with
    | key k =>
      have main : ∀ (map : List (Str × Value)) (lk : Str),
          st.value = Value.obj map →
          iterQueueMeasure segs.length
            (match Value.lookupObj map lk with
             | some next_value => [⟨next_value, st.idx + 1, st.bindings⟩]
             | none => []) < iterStateMeasure segs.length st := by
        intro map lk hv
        cases hl : Value.lookupObj map lk with
        | none => simpa [iterQueueMeasure, hl] using hMpos
        | some next_value =>
            have hsz := lookupObj_size map lk next_value hl
            have hc : sizeV next_value + 1 ≤ sizeV st.value := by
              rw [hv]
              simp only [sizeV]
              omega
            simp only [hl, iterQueueMeasure, iterStateMeasure, List.map_cons,
              List.map_nil, List.sum_cons, List.sum_nil, Nat.add_zero, hr]
            exact pow_det_child_lt _ _ _ hc hrpos
      cases k with
      | string key =>
          cases hv : st.value with
          | obj map => exact main map key hv
          | null | bool _ | num _ | str _ | arr _ =>
              simpa [iterQueueMeasure] using hMpos
      | int key =>
          cases hv : st.value with
          | obj map => exact main map (intRender key) hv
          | null | bool _ | num _ | str _ | arr _ =>
              simpa [iterQueueMeasure] using hMpos
    | index idx =>
      cases hv : st.value with
      | arr a =>
          cases hl : a[idx]? with
          | none => simpa [iterQueueMeasure, hl] using hMpos
          | some next_value =>
              have hsz := getElem?_sizeElems a idx next_value hl
              have hc : sizeV next_value + 1 ≤ sizeV st.value := by
                rw [hv]
                simp only [sizeV]
                omega
              simp only [hl, iterQueueMeasure, iterStateMeasure, List.map_cons,
                List.map_nil, List.sum_cons, List.sum_nil, Nat.add_zero, hr]
              exact pow_det_child_lt _ _ _ hc hrpos
      | null | bool _ | num _ | str _ | obj _ =>
          simpa [iterQueueMeasure] using hMpos
    | keyVariable name =>
      cases hv : st.value with
      | obj map =>
          simp only [iterQueueMeasure, iterStateMeasure, List.map_map]
          have hsum :
              (map.map (iterStateMeasure segs.length ∘ fun e =>
                (⟨e.2, st.idx + 1, Value.insertObj st.bindings name (.str e.1)⟩ : IterState))).sum
                = (map.map (fun e => (sizeV e.2 + 1) ^ (segs.length - st.idx))).sum := by
            congr 1
            apply List.map_congr_left
            intro e _
            simp [iterStateMeasure, Function.comp, hr]
          rw [hsum]
          have h1 := entries_pow_sum (segs.length - st.idx) (sizeEntries map) map (le_refl _)
          have h2 := pow_branch_lt (sizeEntries map) (segs.length - st.idx) hrpos
          have hP : sizeV st.value = 1 + sizeEntries map := by rw [hv]; rfl
          rw [hP]
          have : 1 + sizeEntries map + 1 = sizeEntries map + 2 := by omega
          rw [this]
          omega
      | null | bool _ | num _ | str _ | arr _ =>
          simpa [iterQueueMeasure] using hMpos
    | indexVariable name =>
      cases hv : st.value with
      | arr a =>
          simp only [iterQueueMeasure, iterStateMeasure, List.map_map]
          have hsum :
              (a.enum.map (iterStateMeasure segs.length ∘ fun p =>
                (⟨p.2, st.idx + 1, Value.insertObj st.bindings name (.num p.1)⟩ : IterState))).sum
                = (a.map (fun v => (sizeV v + 1) ^ (segs.length - st.idx))).sum := by
            have hcomp :
                a.enum.map (iterStateMeasure segs.length ∘ fun p =>
                  (⟨p.2, st.idx + 1, Value.insertObj st.bindings name (.num p.1)⟩ : IterState))
                  = a.enum.map ((fun v => (sizeV v + 1) ^ (segs.length - st.idx)) ∘ Prod.snd) := by
              apply List.map_congr_left
              intro p _
              simp [iterStateMeasure, Function.comp, hr]
            rw [hcomp, ← List.map_map]
            rw [List.enum_map_snd]
          rw [hsum]
          have h1 := elems_pow_sum (segs.length - st.idx) (sizeElems a) a (le_refl _)
          have h2 := pow_branch_lt (sizeElems a) (segs.length - st.idx) hrpos
          have hP : sizeV st.value = 1 + sizeElems a := by rw [hv]; rfl
          rw [hP]
          have : 1 + sizeElems a + 1 = sizeElems a + 2 := by omega
          rw [this]
          omega
      | null | bool _ | num _ | str _ | obj _ =>
          simpa [iterQueueMeasure] using hMpos

end Structpath

namespace Structpath

/-- A finished branch: all segments processed
(`state.current_segment_idx >= self.path.segments().len()`). -/
def iterDone (segs : List Segment) (st : IterState) : Bool :=
  segs.length ≤ st.idx

/-- Drain `iter.rs::VariableIterator::next` until exhaustion.  With
`dedup := true` this is the crate's iterator: a finished branch whose
binding set was already seen (the `visited` set keyed on the bindings'
`Debug` rendering, i.e. on map equality) is skipped, otherwise emitted and
recorded; an unfinished branch is expanded at the back of the FIFO
worklist.  With `dedup := false` it is the same loop without the `visited`
set — the raw discovery-ordered completion list used as a reference point
by the deduplication and refinement theorems. -/
def iterLoop (dedup : Bool) (segs : List Segment) :
    List IterState → List (List (Str × Value)) →
    List (Value × List (Str × Value))
  | [], _ => []
  | st :: rest, visited =>
      if iterDone segs st then
        if dedup then
          if st.bindings ∈ visited then iterLoop dedup segs rest visited
          else (st.value, st.bindings) :: iterLoop dedup segs rest (st.bindings :: visited)
        else (st.value, st.bindings) :: iterLoop dedup segs rest visited
      else iterLoop dedup segs (rest ++ iterChildren segs st) visited
termination_by q _ => iterQueueMeasure segs.length q
decreasing_by
  all_goals simp only [iterQueueMeasure, List.map_cons, List.sum_cons,
    List.map_append, List.sum_append]
  all_goals first
    | (have hp := Nat.pos_pow_of_pos (segs.length - st.idx + 1)
         (show 0 < sizeV st.value + 1 by omega)
       simp only [iterStateMeasure]
       omega)
    | (have hlt : st.idx < segs.length := by
         simp only [iterDone, decide_eq_true_eq] at *
         omega
       have := iterChildren_measure_lt segs st hlt
       simp only [iterQueueMeasure, iterStateMeasure] at this ⊢
       omega)

/-- `iter.rs::iter_variables`, drained to a list: the variable search over
a path and a tree, starting from one pending state (the root, index 0,
empty bindings) with an empty `visited` set. -/
def iterate (p : Structpath) (data : Value) :
    List (Value × List (Str × Value)) :=
  iterLoop true p.segments [⟨data, 0, []⟩] []

theorem iterChildren_idx (segs : List Segment) (st : IterState) :
    ∀ c ∈ iterChildren segs st, c.idx = st.idx + 1 := by
  intro c hc
  unfold iterChildren at hc
  repeat' split at hc
  all_goals first
    | exact absurd hc (List.not_mem_nil _)
    | (rw [List.mem_singleton] at hc; rw [hc])
    | (obtain ⟨e, -, he⟩ := List.mem_map.mp hc
       rw [← he])

/-- Depth-first reference enumeration of the completed branches reachable
from one pending state: the branch itself if finished, otherwise the
concatenation over its child branches.  `iterLoop` processes the same
branch tree breadth-first;  the permutation and counting theorems relate
the two. -/
def dfsResults (segs : List Segment) (st : IterState) :
    List (Value × List (Str × Value)) :=
  if iterDone segs st then [(st.value, st.bindings)]
  else ((iterChildren segs st).attach.map
    (fun c => dfsResults segs c.1)).flatten
termination_by segs.length - st.idx
decreasing_by
  have := iterChildren_idx segs st c.1 c.2
  simp only [iterDone, decide_eq_true_eq] at *
  omega

end Structpath

namespace Structpath

@[simp] theorem except_error_bind {α β : Type} (e : StructpathError)
    (f : α → Except StructpathError β) :
    (Except.error e >>= f) = Except.error e := rfl

@[simp] theorem except_ok_bind {α β : Type} (a : α)
    (f : α → Except StructpathError β) :
    (Except.ok a >>= f) = f a := rfl

theorem getLoop_key_nonObject (k : SegmentKey) (rest : List Segment)
    (cur : Value) (vars : VarMap) (h : cur.isObj = false) :
    getLoop (.key k :: rest) cur vars =
      .error (.invalidPath (chars "object") (valueDebug cur)) := by
  cases cur <;> simp_all [getLoop, get_by_key, Value.isObj]

theorem getLoop_key_absent (k : SegmentKey) (rest : List Segment)
    (map : List (Str × Value)) (vars : VarMap)
    (h : Value.lookupObj map (segKeyStr k) = none) :
    getLoop (.key k :: rest) (.obj map) vars = .error .notFound := by
  simp [getLoop, get_by_key, h]

theorem getLoop_key_found (k : SegmentKey) (rest : List Segment)
    (map : List (Str × Value)) (v : Value) (vars : VarMap)
    (h : Value.lookupObj map (segKeyStr k) = some v) :
    getLoop (.key k :: rest) (.obj map) vars = getLoop rest v vars := by
  simp [getLoop, get_by_key, h]

theorem getLoop_index_nonArray (n : Nat) (rest : List Segment)
    (cur : Value) (vars : VarMap) (h : cur.isArr = false) :
    getLoop (.index n :: rest) cur vars =
      .error (.invalidPath (chars "array") (valueDebug cur)) := by
  cases cur <;> simp_all [getLoop, get_by_index, Value.isArr]

theorem getLoop_index_oob (n : Nat) (rest : List Segment)
    (a : List Value) (vars : VarMap) (h : a.length ≤ n) :
    getLoop (.index n :: rest) (.arr a) vars =
      .error (.indexOutOfBounds
        (chars "Index " ++ natDigits n ++
         chars " out of bounds for array of length " ++ natDigits a.length)) := by
  have : a[n]? = none := by
    rw [List.getElem?_eq_none_iff]
    omega
  simp [getLoop, get_by_index, this]

theorem getLoop_index_found (n : Nat) (rest : List Segment)
    (a : List Value) (v : Value) (vars : VarMap) (h : a[n]? = some v) :
    getLoop (.index n :: rest) (.arr a) vars = getLoop rest v vars := by
  simp [getLoop, get_by_index, h]

theorem getLoop_keyVariable_missing (name : Str) (rest : List Segment)
    (cur : Value) (vars : VarMap) (h : lookupVar vars name = none) :
    getLoop (.keyVariable name :: rest) cur vars =
      .error (.missingVariable name) := by
  simp [getLoop, h]

theorem getLoop_indexVariable_missing (name : Str) (rest : List Segment)
    (cur : Value) (vars : VarMap) (h : lookupVar vars name = none) :
    getLoop (.indexVariable name :: rest) cur vars =
      .error (.missingVariable name) := by
  simp [getLoop, h]

theorem getLoop_indexVariable_invalid (name : Str) (rest : List Segment)
    (cur : Value) (vars : VarMap) (s : Str)
    (h : lookupVar vars name = some s) (hp : u64Parse s = none) :
    getLoop (.indexVariable name :: rest) cur vars =
      .error (.invalidVariableValue s) := by
  simp [getLoop, h, hp]

theorem getLoop_keyVariable_bound (name : Str) (rest : List Segment)
    (cur : Value) (vars : VarMap) (s : Str) (h : lookupVar vars name = some s) :
    getLoop (.keyVariable name :: rest) cur vars =
      getLoop (.key (.string s) :: rest) cur vars := by
  cases cur <;> simp [getLoop, h, get_by_key, get_by_string_key, segKeyStr]

theorem getLoop_indexVariable_bound (name : Str) (rest : List Segment)
    (cur : Value) (vars : VarMap) (s : Str) (n : Nat)
    (h : lookupVar vars name = some s) (hp : u64Parse s = some n) :
    getLoop (.indexVariable name :: rest) cur vars =
      getLoop (.index n :: rest) cur vars := by
  cases cur <;> simp [getLoop, h, hp]

/-- **C4.**  `get` resolves a path segment by segment from the root and
returns the first failure immediately, with the specific error per failure
mode: a path containing a variable segment called without bindings fails
immediately with the descriptive `ParseError`; a `Key` segment on a
non-object gives `InvalidPath` with expected `"object"`, an absent key
gives `NotFound`, an `Index` segment on a non-array gives `InvalidPath`
with expected `"array"`, an index `≥` length gives `IndexOutOfBounds`, an
unbound variable gives `MissingVariable`, an index-variable binding that
does not parse as an unsigned integer gives `InvalidVariableValue`, and a
bound key/index variable proceeds exactly as the corresponding literal
segment. -/
theorem C4_get_error_taxonomy :
    (∀ (p : Structpath) (d : Value),
      p.segments.any segHasVariable = true →
      get p d none = .error (.parseError
        (chars "Path contains variables, but no variable context was provided."))) ∧
    (∀ (p : Structpath) (d : Value) (vars : Option VarMap),
      (p.segments.any segHasVariable = true → vars.isSome) →
      get p d vars = getLoop p.segments d (vars.getD [])) ∧
    (∀ (k : SegmentKey) (rest : List Segment) (cur : Value) (vars : VarMap),
      cur.isObj = false →
      getLoop (.key k :: rest) cur vars =
        .error (.invalidPath (chars "object") (valueDebug cur))) ∧
    (∀ (k : SegmentKey) (rest : List Segment) (map : List (Str × Value)) (vars : VarMap),
      Value.lookupObj map (segKeyStr k) = none →
      getLoop (.key k :: rest) (.obj map) vars = .error .notFound) ∧
    (∀ (k : SegmentKey) (rest : List Segment) (map : List (Str × Value)) (v : Value)
       (vars : VarMap),
      Value.lookupObj map (segKeyStr k) = some v →
      getLoop (.key k :: rest) (.obj map) vars = getLoop rest v vars) ∧
    (∀ (n : Nat) (rest : List Segment) (cur : Value) (vars : VarMap),
      cur.isArr = false →
      getLoop (.index n :: rest) cur vars =
        .error (.invalidPath (chars "array") (valueDebug cur))) ∧
    (∀ (n : Nat) (rest : List Segment) (a : List Value) (vars : VarMap),
      a.length ≤ n →
      getLoop (.index n :: rest) (.arr a) vars =
        .error (.indexOutOfBounds
          (chars "Index " ++ natDigits n ++
           chars " out of bounds for array of length " ++ natDigits a.length))) ∧
    (∀ (n : Nat) (rest : List Segment) (a : List Value) (v : Value) (vars : VarMap),
      a[n]? = some v →
      getLoop (.index n :: rest) (.arr a) vars = getLoop rest v vars) ∧
    (∀ (name : Str) (rest : List Segment) (cur : Value) (vars : VarMap),
      lookupVar vars name = none →
      getLoop (.keyVariable name :: rest) cur vars = .error (.missingVariable name)) ∧
    (∀ (name : Str) (rest : List Segment) (cur : Value) (vars : VarMap),
      lookupVar vars name = none →
      getLoop (.indexVariable name :: rest) cur vars = .error (.missingVariable name)) ∧
    (∀ (name : Str) (rest : List Segment) (cur : Value) (vars : VarMap) (s : Str),
      lookupVar vars name = some s → u64Parse s = none →
      getLoop (.indexVariable name :: rest) cur vars =
        .error (.invalidVariableValue s)) ∧
    (∀ (name : Str) (rest : List Segment) (cur : Value) (vars : VarMap) (s : Str),
      lookupVar vars name = some s →
      getLoop (.keyVariable name :: rest) cur vars =
        getLoop (.key (.string s) :: rest) cur vars) ∧
    (∀ (name : Str) (rest : List Segment) (cur : Value) (vars : VarMap) (s : Str) (n : Nat),
      lookupVar vars name = some s → u64Parse s = some n →
      getLoop (.indexVariable name :: rest) cur vars =
        getLoop (.index n :: rest) cur vars) := by
  refine ⟨?_, ?_, getLoop_key_nonObject, getLoop_key_absent, getLoop_key_found,
    getLoop_index_nonArray, getLoop_index_oob, getLoop_index_found,
    getLoop_keyVariable_missing, getLoop_indexVariable_missing,
    getLoop_indexVariable_invalid, getLoop_keyVariable_bound,
    getLoop_indexVariable_bound⟩
  · intro p d h
    simp [get, h]
  · intro p d vars h
    cases vars with
    | none =>
        by_cases hv : p.segments.any segHasVariable = true
        · exact absurd (h hv) (by simp)
        · rw [Bool.not_eq_true] at hv
          simp [get, hv]
    | some m => simp [get]

/-- Witness for C4 at concrete inputs: an absent key on an object and an
out-of-range index. -/
theorem C4_get_error_taxonomy_witness :
    getLoop [.key (.string (chars "c"))] (.obj [(chars "b", .num 1)]) [] =
      .error .notFound ∧
    getLoop [.index 5] (.arr [.num 1, .num 2]) [] =
      .error (.indexOutOfBounds
        (chars "Index " ++ natDigits 5 ++
         chars " out of bounds for array of length " ++ natDigits 2)) :=
  ⟨C4_get_error_taxonomy.2.2.2.1 (.string (chars "c")) [] [(chars "b", .num 1)] []
     (by decide),
   C4_get_error_taxonomy.2.2.2.2.2.2.1 5 [] [.num 1, .num 2] [] (by decide)⟩

end Structpath

namespace Structpath

/-- A binding context resolves every variable segment of a path: key
variables are bound, index variables are bound to text that parses as an
unsigned integer. -/
def resolvesAll (vars : Option VarMap) (segs : List Segment) : Prop :=
  ∀ seg ∈ segs,
    match seg with
    | .keyVariable name => ∃ m s, vars = some m ∧ lookupVar m name = some s
    | .indexVariable name =>
        ∃ m s n, vars = some m ∧ lookupVar m name = some s ∧ u64Parse s = some n
    | _ => True

theorem resolveSeg_ok (seg : Segment) (m : VarMap)
    (h : match seg with
         | .keyVariable name => ∃ s, lookupVar m name = some s
         | .indexVariable name =>
             ∃ s n, lookupVar m name = some s ∧ u64Parse s = some n
         | _ => True) :
    ∃ r, resolveSeg seg m = .ok r := by
  cases seg with
  | key k => exact ⟨.inl k, rfl⟩
  | index idx => exact ⟨.inr idx, rfl⟩
  | keyVariable name =>
      obtain ⟨s, hs⟩ := h
      exact ⟨.inl (.string s), by simp [resolveSeg, hs]⟩
  | indexVariable name =>
      obtain ⟨s, n, hs, hn⟩ := h
      exact ⟨.inr n, by simp [resolveSeg, hs, hn]⟩

theorem resolveSeg_error_shape (seg : Segment) (m : VarMap) (e : StructpathError)
    (h : resolveSeg seg m = .error e) :
    (∃ n, e = .missingVariable n) ∨ (∃ s, e = .invalidVariableValue s) := by
  unfold resolveSeg at h
  repeat' split at h
  all_goals first
    | (simp only [Except.error.injEq] at h
       subst h
       first
         | exact .inl ⟨_, rfl⟩
         | exact .inr ⟨_, rfl⟩)
    | simp at h

theorem bind_isOk {α β : Type} (x : Except StructpathError α)
    (f : α → Except StructpathError β) (hx : x.isOk = true)
    (hf : ∀ a, (f a).isOk = true) : (x >>= f).isOk = true := by
  cases x with
  | error e => simp [Except.isOk, Except.toBool] at hx
  | ok a => simpa using hf a

theorem isOk_exists {α : Type} (x : Except StructpathError α)
    (hx : x.isOk = true) : ∃ a, x = .ok a := by
  cases x with
  | error e => simp [Except.isOk, Except.toBool] at hx
  | ok a => exact ⟨a, rfl⟩

theorem writeLoop_isOk (segs : List Segment) (m : VarMap)
    (hres : ∀ seg ∈ segs,
      match seg with
      | .keyVariable name => ∃ s, lookupVar m name = some s
      | .indexVariable name =>
          ∃ s n, lookupVar m name = some s ∧ u64Parse s = some n
      | _ => True) :
    ∀ cur value, (writeLoop cur segs value m).isOk = true := by
  induction segs with
  | nil => intro cur value; rfl
  | cons seg rest ih =>
      intro cur value
      obtain ⟨r, hr⟩ := resolveSeg_ok seg m (hres seg (by simp))
      have hrest : ∀ s ∈ rest,
          match s with
          | .keyVariable name => ∃ s, lookupVar m name = some s
          | .indexVariable name =>
              ∃ s n, lookupVar m name = some s ∧ u64Parse s = some n
          | _ => True := fun s hs => hres s (by simp [hs])
      cases rest with
      | nil =>
          cases r with
          | inl k => simp [writeLoop, hr, Except.isOk, Except.toBool]
          | inr idx => simp [writeLoop, hr, Except.isOk, Except.toBool]
      | cons next rest' =>
          cases r with
          | inl k =>
              cases cur <;>
                (simp only [writeLoop, hr, except_ok_bind]
                 exact bind_isOk _ _ (ih hrest _ value) (fun a => rfl))
          | inr idx =>
              cases cur <;>
                (simp only [writeLoop, hr, except_ok_bind]
                 exact bind_isOk _ _ (ih hrest _ value) (fun a => rfl))

end Structpath

namespace Structpath

theorem writeLoop_error_shape (segs : List Segment) (m : VarMap) :
    ∀ (cur value : Value) (e : StructpathError),
      writeLoop cur segs value m = .error e →
      (∃ n, e = .missingVariable n) ∨ (∃ s, e = .invalidVariableValue s) := by
  induction segs with
  | nil => intro cur value e h; simp [writeLoop] at h
  | cons seg rest ih =>
      intro cur value e h
      cases hr : resolveSeg seg m with
      | error e' =>
          have hshape := resolveSeg_error_shape seg m e' hr
          cases rest with
          | nil =>
              simp only [writeLoop, hr, except_error_bind] at h
              cases h
              exact hshape
          | cons next rest' =>
              simp only [writeLoop, hr, except_error_bind] at h
              cases h
              exact hshape
      | ok r =>
          cases rest with
          | nil =>
              cases r with
              | inl k => simp [writeLoop, hr] at h
              | inr idx => simp [writeLoop, hr] at h
          | cons next rest' =>
              cases r with
              | inl k =>
                  cases cur <;>
                    (simp only [writeLoop, hr, except_ok_bind] at h
                     cases hw : writeLoop _ (next :: rest') value m with
                     | ok v => rw [hw] at h; simp at h
                     | error e' =>
                         rw [hw] at h
                         simp at h
                         cases h
                         exact ih _ value _ hw)
              | inr idx =>
                  cases cur <;>
                    (simp only [writeLoop, hr, except_ok_bind] at h
                     cases hw : writeLoop _ (next :: rest') value m with
                     | ok v => rw [hw] at h; simp at h
                     | error e' =>
                         rw [hw] at h
                         simp at h
                         cases h
                         exact ih _ value _ hw)

end Structpath

namespace Structpath

theorem replicate_set_last {α : Type} (idx : Nat) (x v : α) :
    (List.replicate (idx + 1) x).set idx v = List.replicate idx x ++ [v] := by
  induction idx with
  | zero => rfl
  | succ n ih =>
      simp only [List.replicate_succ, List.set_cons_succ]
      rw [← List.replicate_succ, ih]
      rw [List.replicate_succ, List.cons_append]

theorem lookupObj_insertObj_self (m : List (Str × Value)) (k : Str) (v : Value) :
    Value.lookupObj (Value.insertObj m k v) k = some v := by
  induction m with
  | nil => simp [Value.insertObj, Value.lookupObj]
  | cons e rest ih =>
      by_cases hk : e.1 = k
      · cases e
        simp_all [Value.insertObj, Value.lookupObj]
      · cases e
        simp_all [Value.insertObj, Value.lookupObj]

theorem padNull_getElem? (a : List Value) (idx j : Nat)
    (h1 : a.length ≤ j) (h2 : j ≤ idx) :
    (padNull a idx)[j]? = some Value.null := by
  unfold padNull
  rw [List.getElem?_append_right h1]
  rw [List.getElem?_replicate]
  rw [if_pos (by omega)]

theorem coerce_nonContainer_key (child : Value) (next : Segment)
    (hk : (next matches .key _ | .keyVariable _)) (h : child.isObj = false) :
    coerceForNext child next = .obj [] := by
  cases next <;> simp_all [coerceForNext] <;> cases child <;> simp_all [Value.isObj]

theorem coerce_nonContainer_index (child : Value) (next : Segment)
    (hk : (next matches .index _ | .indexVariable _)) (h : child.isArr = false) :
    coerceForNext child next = .arr [] := by
  cases next <;> simp_all [coerceForNext] <;> cases child <;> simp_all [Value.isArr]

/-- When the current location is not an object, a resolved key-like step of
`write` behaves exactly as if the location had been replaced by an empty
object: the old contents are discarded. -/
theorem writeLoop_key_replaces (seg : Segment) (m : VarMap) (k : SegmentKey)
    (hr : resolveSeg seg m = .ok (.inl k)) (rest : List Segment)
    (cur : Value) (hcur : cur.isObj = false) (value : Value) :
    writeLoop cur (seg :: rest) value m =
      writeLoop (.obj []) (seg :: rest) value m := by
  cases rest with
  | nil =>
      simp only [writeLoop, hr, except_ok_bind]
      cases cur <;> simp_all [write_by_key, Value.insertObj, Value.isObj]
  | cons next rest' =>
      simp only [writeLoop, hr, except_ok_bind]
      have hobj : Value.lookupObj (Value.insertObj [] (segKeyStr k) Value.null)
          (segKeyStr k) = some Value.null := lookupObj_insertObj_self [] _ _
      cases cur <;>
        simp_all [Value.lookupObj, Value.insertObj, Value.isObj, coerceForNext,
          emptyForNext, Option.getD] <;>
        cases next <;>
        simp [coerceForNext, emptyForNext, Value.isObj, Value.isArr]

/-- When the current location is not an array, a resolved index-like step
of `write` behaves exactly as if the location had been replaced by an empty
array: the old contents are discarded. -/
theorem writeLoop_index_replaces (seg : Segment) (m : VarMap) (idx : Nat)
    (hr : resolveSeg seg m = .ok (.inr idx)) (rest : List Segment)
    (cur : Value) (hcur : cur.isArr = false) (value : Value) :
    writeLoop cur (seg :: rest) value m =
      writeLoop (.arr []) (seg :: rest) value m := by
  have hpad : padNull [] idx = List.replicate (idx + 1) Value.null := by
    simp [padNull]
  cases rest with
  | nil =>
      simp only [writeLoop, hr, except_ok_bind]
      cases cur <;>
        simp_all [write_by_index, Value.isArr, hpad, replicate_set_last]
  | cons next rest' =>
      simp only [writeLoop, hr, except_ok_bind]
      have hget : (padNull [] idx).getD idx Value.null = Value.null := by
        rw [List.getD_eq_getElem?_getD,
          padNull_getElem? [] idx idx (by simp) (le_refl idx)]
        rfl
      cases cur <;> simp_all [Value.isArr]

end Structpath

namespace Structpath

theorem resolvesAll_to_loop (vars : Option VarMap) (segs : List Segment)
    (h : resolvesAll vars segs) :
    ∀ seg ∈ segs,
      match seg with
      | .keyVariable name => ∃ s, lookupVar (vars.getD []) name = some s
      | .indexVariable name =>
          ∃ s n, lookupVar (vars.getD []) name = some s ∧ u64Parse s = some n
      | _ => True := by
  intro seg hs
  have := h seg hs
  cases seg with
  | key k => trivial
  | index idx => trivial
  | keyVariable name =>
      obtain ⟨m, s, hm, hls⟩ := this
      exact ⟨s, by rw [hm]; exact hls⟩
  | indexVariable name =>
      obtain ⟨m, s, n, hm, hls, hn⟩ := this
      exact ⟨s, n, by rw [hm]; exact hls, hn⟩

/-- **C3.**  For every path, starting tree (or absent tree), new value and
binding map that resolves all variable segments, `write` succeeds; at a
non-final step whose current location is not the required container kind,
the location is discarded and replaced by an empty container of that kind;
missing object keys are created with `Null` and arrays are padded with
`Null` up to the required index; and `write` never returns `InvalidPath`,
`NotFound` or `IndexOutOfBounds` on any input. -/
theorem C3_write_autovivifies :
    (∀ (p : Structpath) (data : Option Value) (value : Value) (vars : Option VarMap),
      resolvesAll vars p.segments → ∃ v, (write p data value vars).1 = .ok v) ∧
    (∀ (p : Structpath) (data : Option Value) (value : Value) (vars : Option VarMap)
       (e : StructpathError),
      (write p data value vars).1 = .error e →
      (∃ msg, e = .parseError msg) ∨ (∃ n, e = .missingVariable n) ∨
        (∃ s, e = .invalidVariableValue s)) ∧
    (∀ (seg : Segment) (m : VarMap) (k : SegmentKey),
      resolveSeg seg m = .ok (.inl k) →
      ∀ (rest : List Segment) (cur : Value), cur.isObj = false → ∀ (value : Value),
        writeLoop cur (seg :: rest) value m =
          writeLoop (.obj []) (seg :: rest) value m) ∧
    (∀ (seg : Segment) (m : VarMap) (idx : Nat),
      resolveSeg seg m = .ok (.inr idx) →
      ∀ (rest : List Segment) (cur : Value), cur.isArr = false → ∀ (value : Value),
        writeLoop cur (seg :: rest) value m =
          writeLoop (.arr []) (seg :: rest) value m) ∧
    (∀ (m : List (Str × Value)) (k : Str),
      Value.lookupObj (Value.insertObj m k .null) k = some .null) ∧
    (∀ (a : List Value) (idx j : Nat), a.length ≤ j → j ≤ idx →
      (padNull a idx)[j]? = some Value.null) := by
  refine ⟨?_, ?_,
    fun seg m k hr rest cur hcur value =>
      writeLoop_key_replaces seg m k hr rest cur hcur value,
    fun seg m idx hr rest cur hcur value =>
      writeLoop_index_replaces seg m idx hr rest cur hcur value,
    fun m k => lookupObj_insertObj_self m k .null,
    padNull_getElem?⟩
  · intro p data value vars hres
    by_cases hc : (p.segments.any segHasVariable && vars.isNone) = true
    · exfalso
      rw [Bool.and_eq_true] at hc
      obtain ⟨hany, hnone⟩ := hc
      rw [List.any_eq_true] at hany
      obtain ⟨seg, hmem, hseg⟩ := hany
      have := hres seg hmem
      cases seg with
      | key k => simp [segHasVariable] at hseg
      | index idx => simp [segHasVariable] at hseg
      | keyVariable name =>
          obtain ⟨m, s, hm, -⟩ := this
          rw [hm] at hnone
          simp at hnone
      | indexVariable name =>
          obtain ⟨m, s, n, hm, -⟩ := this
          rw [hm] at hnone
          simp at hnone
    · rw [Bool.not_eq_true] at hc
      by_cases he : p.segments.isEmpty
      · exact ⟨value, by simp [write, hc, he]⟩
      · have hok := writeLoop_isOk p.segments (vars.getD [])
          (resolvesAll_to_loop vars p.segments hres) (data.getD .null) value
        obtain ⟨v, hv⟩ := isOk_exists _ hok
        refine ⟨v, ?_⟩
        rw [Bool.not_eq_true] at he
        simp [write, hc, he, hv]
  · intro p data value vars e h
    by_cases hc : (p.segments.any segHasVariable && vars.isNone) = true
    · simp [write, hc] at h
      exact .inl ⟨_, h.symm⟩
    · rw [Bool.not_eq_true] at hc
      by_cases he : p.segments.isEmpty
      · simp [write, hc, he] at h
      · rw [Bool.not_eq_true] at he
        cases hw : writeLoop (data.getD .null) p.segments value (vars.getD []) with
        | ok v => simp [write, hc, he, hw] at h
        | error e' =>
            simp [write, hc, he, hw] at h
            subst h
            exact .inr (writeLoop_error_shape p.segments (vars.getD [])
              (data.getD .null) value e' hw)

/-- Witness for C3 at a concrete input: writing through a scalar with the
two-segment path `a[2]` succeeds from an absent tree. -/
theorem C3_write_autovivifies_witness :
    ∃ v, (write ⟨[.key (.string (chars "a")), .index 2], []⟩ none (.num 7) none).1 =
      .ok v := by
  apply C3_write_autovivifies.1
  intro seg hs
  simp only [List.mem_cons, List.not_mem_nil, or_false] at hs
  rcases hs with rfl | rfl <;> trivial

/-- **C6, counterexample.**  For the zero-segment path with a supplied
mutable slot, `write` returns the new value but the slot keeps its old
contents: the claim that the slot is overwritten for every path fails. -/
theorem C6_counterexample :
    write ⟨[], []⟩ (some (Value.num 1)) (Value.num 2) none =
      (.ok (Value.num 2), some (Value.num 1)) ∧
    Value.num 1 ≠ Value.num 2 := ⟨rfl, by decide⟩

/-- **C6, amended.**  `write` operates on a private copy of the input
tree; on success with a path of at least one segment, a supplied mutable
slot is overwritten with the mutated result; for the zero-segment path the
result is simply the new value (the whole tree is replaced in the returned
value) but the zero-segment early return skips the mirroring, so the slot
keeps its old contents; with no slot supplied nothing is mirrored. -/
theorem C6_write_mirror_amended :
    (∀ (p : Structpath) (d : Value) (value : Value) (vars : Option VarMap) (r : Value),
      p.segments ≠ [] → (write p (some d) value vars).1 = .ok r →
      (write p (some d) value vars).2 = some r) ∧
    (∀ (vn : List Str) (d : Option Value) (value : Value) (vars : Option VarMap),
      write ⟨[], vn⟩ d value vars = (.ok value, d)) ∧
    (∀ (p : Structpath) (value : Value) (vars : Option VarMap),
      (write p none value vars).2 = none) := by
  refine ⟨?_, ?_, ?_⟩
  · intro p d value vars r hne h
    by_cases hc : (p.segments.any segHasVariable && (vars : Option VarMap).isNone) = true
    · simp [write, hc] at h
    · rw [Bool.not_eq_true] at hc
      have he : p.segments.isEmpty = false := by
        cases hs : p.segments with
        | nil => exact absurd hs hne
        | cons a l => simp [hs]
      cases hw : writeLoop d p.segments value (vars.getD []) with
      | ok w =>
          have h1 : (write p (some d) value vars).1 = .ok w := by
            simp [write, hc, he, hw]
          rw [h1] at h
          cases h
          simp [write, hc, he, hw]
      | error e2 =>
          simp [write, hc, he, hw] at h
  · intro vn d value vars
    simp [write, segHasVariable]
  · intro p value vars
    simp only [write]
    repeat' split
    all_goals rfl

end Structpath

namespace Structpath

/-- Witness for the amended C6 at concrete inputs: a one-segment write
mirrors its result into the slot; the zero-segment write replaces the
returned tree but not the slot. -/
theorem C6_write_mirror_amended_witness :
    (write ⟨[.key (.string (chars "a"))], []⟩ (some (Value.num 1)) (Value.num 2)
        none).2 = some (Value.obj [(chars "a", Value.num 2)]) ∧
    write ⟨[], []⟩ (some (Value.num 3)) (Value.num 4) none =
      (.ok (Value.num 4), some (Value.num 3)) :=
  ⟨C6_write_mirror_amended.1 ⟨[.key (.string (chars "a"))], []⟩ (Value.num 1)
      (Value.num 2) none (Value.obj [(chars "a", Value.num 2)]) (by decide) rfl,
   C6_write_mirror_amended.2.1 [] (some (Value.num 3)) (Value.num 4) none⟩

end Structpath

namespace Structpath

/-- First-occurrence filtering keyed on the accumulated binding set: the
deduplication the iterator's `visited` set performs, applied to an already
materialised result list. -/
def dedupFirst : List (Value × List (Str × Value)) → List (List (Str × Value)) →
    List (Value × List (Str × Value))
  | [], _ => []
  | (v, b) :: rest, visited =>
      if b ∈ visited then dedupFirst rest visited
      else (v, b) :: dedupFirst rest (b :: visited)

theorem iterLoop_nil (dedup : Bool) (segs : List Segment)
    (vis : List (List (Str × Value))) : iterLoop dedup segs [] vis = [] := by
  simp only [iterLoop]

theorem iterLoop_step (dedup : Bool) (segs : List Segment) (st : IterState)
    (rest : List IterState) (vis : List (List (Str × Value)))
    (h : iterDone segs st = false) :
    iterLoop dedup segs (st :: rest) vis =
      iterLoop dedup segs (rest ++ iterChildren segs st) vis := by
  simp only [iterLoop]
  simp [h]

theorem iterLoop_emit_false (segs : List Segment) (st : IterState)
    (rest : List IterState) (vis : List (List (Str × Value)))
    (h : iterDone segs st = true) :
    iterLoop false segs (st :: rest) vis =
      (st.value, st.bindings) :: iterLoop false segs rest vis := by
  simp only [iterLoop]
  simp [h]

theorem iterLoop_skip_true (segs : List Segment) (st : IterState)
    (rest : List IterState) (vis : List (List (Str × Value)))
    (h : iterDone segs st = true) (hm : st.bindings ∈ vis) :
    iterLoop true segs (st :: rest) vis = iterLoop true segs rest vis := by
  simp only [iterLoop]
  simp [h, hm]

theorem iterLoop_emit_true (segs : List Segment) (st : IterState)
    (rest : List IterState) (vis : List (List (Str × Value)))
    (h : iterDone segs st = true) (hm : st.bindings ∉ vis) :
    iterLoop true segs (st :: rest) vis =
      (st.value, st.bindings) :: iterLoop true segs rest (st.bindings :: vis) := by
  simp only [iterLoop]
  simp [h, hm]

theorem iterLoop_false_visited (segs : List Segment) :
    ∀ (q : List IterState) (vis1 vis2 : List (List (Str × Value))),
      iterLoop false segs q vis1 = iterLoop false segs q vis2 := by
  intro q vis
  induction q, vis using iterLoop.induct false segs with
  | case1 vis => intro vis2; simp [iterLoop_nil]
  | case2 st rest vis hdone hded => simp at hded
  | case3 st rest vis hdone hded => simp at hded
  | case4 st rest vis hdone hded ih =>
      intro vis2
      rw [iterLoop_emit_false segs st rest vis hdone,
        iterLoop_emit_false segs st rest vis2 hdone, ih vis2]
  | case5 st rest vis hdone ih =>
      intro vis2
      rw [Bool.not_eq_true] at hdone
      rw [iterLoop_step false segs st rest vis hdone,
        iterLoop_step false segs st rest vis2 hdone, ih vis2]

theorem iterLoop_true_dedupFirst (segs : List Segment) :
    ∀ (q : List IterState) (vis : List (List (Str × Value))),
      iterLoop true segs q vis = dedupFirst (iterLoop false segs q vis) vis := by
  intro q vis
  induction q, vis using iterLoop.induct true segs with
  | case1 vis => simp [iterLoop_nil, dedupFirst]
  | case2 st rest vis hdone hded hmem ih =>
      rw [iterLoop_skip_true segs st rest vis hdone hmem,
        iterLoop_emit_false segs st rest vis hdone, ih]
      simp only [dedupFirst]
      rw [if_pos hmem]
  | case3 st rest vis hdone hded hmem ih =>
      rw [iterLoop_emit_true segs st rest vis hdone hmem,
        iterLoop_emit_false segs st rest vis hdone, ih]
      simp only [dedupFirst, if_neg hmem]
      rw [iterLoop_false_visited segs rest vis (st.bindings :: vis)]
  | case4 st rest vis hdone hded => simp at hded
  | case5 st rest vis hdone ih =>
      rw [Bool.not_eq_true] at hdone
      rw [iterLoop_step true segs st rest vis hdone,
        iterLoop_step false segs st rest vis hdone, ih]

theorem iterLoop_false_perm (segs : List Segment) :
    ∀ (q : List IterState) (vis : List (List (Str × Value))),
      (iterLoop false segs q vis).Perm ((q.map (dfsResults segs)).flatten) := by
  intro q vis
  induction q, vis using iterLoop.induct false segs with
  | case1 vis => simp [iterLoop_nil]
  | case2 st rest vis hdone hded => simp at hded
  | case3 st rest vis hdone hded => simp at hded
  | case4 st rest vis hdone hded ih =>
      rw [iterLoop_emit_false segs st rest vis hdone]
      have hd : dfsResults segs st = [(st.value, st.bindings)] := by
        rw [dfsResults, if_pos hdone]
      simp only [List.map_cons, List.flatten_cons, hd, List.singleton_append]
      exact List.Perm.cons _ ih
  | case5 st rest vis hdone ih =>
      have hdone' : iterDone segs st = false := by
        rw [← Bool.not_eq_true]
        exact hdone
      rw [iterLoop_step false segs st rest vis hdone']
      refine ih.trans ?_
      simp only [List.map_append, List.flatten_append, List.map_cons,
        List.flatten_cons]
      have hdfs : dfsResults segs st =
          ((iterChildren segs st).map (dfsResults segs)).flatten := by
        rw [dfsResults, if_neg (by simpa using hdone)]
        rw [List.attach_map_coe]
      rw [hdfs]
      exact List.perm_append_comm

theorem dedupFirst_eq_self (l : List (Value × List (Str × Value))) :
    ∀ (vis : List (List (Str × Value))),
      (l.map Prod.snd).Nodup → (∀ b ∈ l.map Prod.snd, b ∉ vis) →
      dedupFirst l vis = l := by
  induction l with
  | nil => intro vis h1 h2; rfl
  | cons x rest ih =>
      intro vis h1 h2
      obtain ⟨v, b⟩ := x
      simp only [List.map_cons, List.nodup_cons] at h1
      have hb : b ∉ vis := h2 b (by rw [List.map_cons]; exact List.mem_cons_self _ _)
      have hside : ∀ c ∈ rest.map Prod.snd, c ∉ b :: vis := by
        intro c hc
        simp only [List.mem_cons, not_or]
        refine ⟨fun he => h1.1 (he ▸ hc), h2 c ?_⟩
        rw [List.map_cons]
        exact List.mem_cons_of_mem _ hc
      simp only [dedupFirst]
      rw [if_neg hb, ih (b :: vis) h1.2 hside]

theorem dedupFirst_nodup (l : List (Value × List (Str × Value))) :
    ∀ vis, ((dedupFirst l vis).map Prod.snd).Nodup ∧
      ∀ b ∈ (dedupFirst l vis).map Prod.snd, b ∉ vis := by
  induction l with
  | nil => intro vis; simp [dedupFirst]
  | cons x rest ih =>
      intro vis
      obtain ⟨v, b⟩ := x
      by_cases hb : b ∈ vis
      · simp only [dedupFirst]
        rw [if_pos hb]
        exact ih vis
      · have h := ih (b :: vis)
        simp only [dedupFirst]
        rw [if_neg hb]
        simp only [List.map_cons, List.nodup_cons]
        refine ⟨⟨fun hmem => ?_, h.1⟩, ?_⟩
        · exact absurd (List.mem_cons_self b vis) (h.2 b hmem)
        · intro c hc
          simp only [List.mem_cons] at hc
          rcases hc with rfl | hc
          · exact hb
          · have := h.2 c hc
            simp only [List.mem_cons, not_or] at this
            exact this.2

end Structpath

namespace Structpath

/-- The one-variable path `#x` and a model-level object with a repeated
key, used to demonstrate the binding-set-keyed collapse. -/
def dupKeyObj : Value := .obj [(chars "a", .num 1), (chars "a", .num 2)]

/-- **C9.**  `iterate`'s deduplication is keyed on the accumulated binding
set only: the iterator equals first-occurrence filtering (keyed on the
bindings) of the same worklist run without the `visited` set, so whenever
two completed branches reach the end of the path with identical accumulated
binding sets, only the first-discovered result is emitted — even if the two
branches reached different values, as the concrete repeated-key object
shows (`(a,1)` and `(a,2)` both bind `x := "a"`; only the value `1` is
emitted); consequently the emitted binding sets are pairwise distinct. -/
theorem C9_iterate_dedups_on_bindings :
    (∀ (p : Structpath) (d : Value),
      iterate p d =
        dedupFirst (iterLoop false p.segments [⟨d, 0, []⟩] []) []) ∧
    (∀ (p : Structpath) (d : Value), ((iterate p d).map Prod.snd).Nodup) ∧
    iterLoop false [.keyVariable (chars "x")] [⟨dupKeyObj, 0, []⟩] [] =
      [(.num 1, [(chars "x", .str (chars "a"))]),
       (.num 2, [(chars "x", .str (chars "a"))])] ∧
    iterate ⟨[.keyVariable (chars "x")], [chars "x"]⟩ dupKeyObj =
      [(.num 1, [(chars "x", .str (chars "a"))])] := by
  have hch : iterChildren [.keyVariable (chars "x")] ⟨dupKeyObj, 0, []⟩ =
      [⟨.num 1, 1, [(chars "x", .str (chars "a"))]⟩,
       ⟨.num 2, 1, [(chars "x", .str (chars "a"))]⟩] := by decide
  refine ⟨fun p d => iterLoop_true_dedupFirst p.segments [⟨d, 0, []⟩] [], ?_, ?_, ?_⟩
  · intro p d
    rw [show iterate p d =
      dedupFirst (iterLoop false p.segments [⟨d, 0, []⟩] []) [] from
      iterLoop_true_dedupFirst p.segments [⟨d, 0, []⟩] []]
    exact (dedupFirst_nodup _ []).1
  · rw [iterLoop_step false _ _ [] [] (by decide), List.nil_append, hch,
      iterLoop_emit_false _ _ _ [] (by decide),
      iterLoop_emit_false _ _ _ [] (by decide),
      iterLoop_nil]
  · show iterLoop true _ _ _ = _
    rw [iterLoop_step true _ _ [] [] (by decide), List.nil_append, hch,
      iterLoop_emit_true _ _ _ [] (by decide) (by decide),
      iterLoop_skip_true _ _ _ _ (by decide) (by decide),
      iterLoop_nil]

end Structpath

namespace Structpath

theorem iterChildren_noVar (segs : List Segment) (st : IterState)
    (hnv : ∀ s ∈ segs, segHasVariable s = false) :
    iterChildren segs st = [] ∨
      ∃ w, iterChildren segs st = [⟨w, st.idx + 1, st.bindings⟩] := by
  cases hseg : segs[st.idx]? with
  | none =>
      left
      unfold iterChildren
      rw [hseg]
  | some seg =>
      have hmem : seg ∈ segs := by
        obtain ⟨hlt, hg⟩ := List.getElem?_eq_some_iff.mp hseg
        exact hg ▸ List.getElem_mem hlt
      have hs := hnv seg hmem
      unfold iterChildren
      rw [hseg]
      cases seg with
      | key k =>
          cases k with
          | string key =>
              cases st.value with
              | obj map =>
                  dsimp only
                  cases hl : Value.lookupObj map key with
                  | some w => exact .inr ⟨w, rfl⟩
                  | none => exact .inl rfl
              | null | bool _ | num _ | str _ | arr _ => exact .inl rfl
          | int key =>
              cases st.value with
              | obj map =>
                  dsimp only
                  cases hl : Value.lookupObj map (intRender key) with
                  | some w => exact .inr ⟨w, rfl⟩
                  | none => exact .inl rfl
              | null | bool _ | num _ | str _ | arr _ => exact .inl rfl
      | index idx =>
          cases st.value with
          | arr a =>
              dsimp only
              cases hl : a[idx]? with
              | some w => exact .inr ⟨w, rfl⟩
              | none => exact .inl rfl
          | null | bool _ | num _ | str _ | obj _ => exact .inl rfl
      | keyVariable name => simp [segHasVariable] at hs
      | indexVariable name => simp [segHasVariable] at hs

theorem iterLoop_false_singleton (segs : List Segment)
    (hnv : ∀ s ∈ segs, segHasVariable s = false) :
    ∀ (n : Nat) (st : IterState) (vis : List (List (Str × Value))),
      segs.length - st.idx ≤ n →
      iterLoop false segs [st] vis = dfsResults segs st := by
  intro n
  induction n with
  | zero =>
      intro st vis hn
      have hdone : iterDone segs st = true := by
        simp only [iterDone, decide_eq_true_eq]
        omega
      rw [iterLoop_emit_false segs st [] vis hdone, iterLoop_nil,
        dfsResults, if_pos hdone]
  | succ n ih =>
      intro st vis hn
      by_cases hdone : iterDone segs st = true
      · rw [iterLoop_emit_false segs st [] vis hdone, iterLoop_nil,
          dfsResults, if_pos hdone]
      · have hdone' : iterDone segs st = false := by
          rw [← Bool.not_eq_true]
          exact hdone
        have hlt : st.idx < segs.length := by
          simp only [iterDone, decide_eq_true_eq] at hdone'
          simp at hdone'
          omega
        have hdfs : dfsResults segs st =
            ((iterChildren segs st).map (dfsResults segs)).flatten := by
          rw [dfsResults, if_neg hdone, List.attach_map_coe]
        rw [iterLoop_step false segs st [] vis hdone', List.nil_append]
        rcases iterChildren_noVar segs st hnv with hch | ⟨w, hch⟩
        · rw [hch, iterLoop_nil, hdfs, hch]
          rfl
        · rw [hch, hdfs, hch]
          have hidx := iterChildren_idx segs st ⟨w, st.idx + 1, st.bindings⟩
            (by rw [hch]; exact List.mem_singleton.mpr rfl)
          rw [ih ⟨w, st.idx + 1, st.bindings⟩ vis (by simp; omega)]
          simp

end Structpath

namespace Structpath

theorem iterChildren_getLoop_head (segs : List Segment) (i : Nat) (v : Value)
    (b : List (Str × Value)) (seg : Segment) (hseg : segs[i]? = some seg)
    (hs : segHasVariable seg = false) :
    (∃ w, iterChildren segs ⟨v, i, b⟩ = [⟨w, i + 1, b⟩] ∧
       getLoop (seg :: segs.drop (i + 1)) v [] = getLoop (segs.drop (i + 1)) w []) ∨
    (iterChildren segs ⟨v, i, b⟩ = [] ∧
       ∃ e, getLoop (seg :: segs.drop (i + 1)) v [] = .error e) := by
  unfold iterChildren
  rw [hseg]
  cases seg with
  | key k =>
      cases k with
      | string key =>
          cases v with
          | obj map =>
              dsimp only
              cases hl : Value.lookupObj map key with
              | some w =>
                  exact .inl ⟨w, rfl, getLoop_key_found _ _ _ _ [] hl⟩
              | none =>
                  exact .inr ⟨rfl, _, getLoop_key_absent _ _ _ [] hl⟩
          | null | bool _ | num _ | str _ | arr _ =>
              exact .inr ⟨rfl, _, getLoop_key_nonObject _ _ _ [] rfl⟩
      | int key =>
          cases v with
          | obj map =>
              dsimp only
              cases hl : Value.lookupObj map (intRender key) with
              | some w =>
                  exact .inl ⟨w, rfl, getLoop_key_found _ _ _ _ [] hl⟩
              | none =>
                  exact .inr ⟨rfl, _, getLoop_key_absent _ _ _ [] hl⟩
          | null | bool _ | num _ | str _ | arr _ =>
              exact .inr ⟨rfl, _, getLoop_key_nonObject _ _ _ [] rfl⟩
  | index idx =>
      cases v with
      | arr a =>
          dsimp only
          cases hl : a[idx]? with
          | some w =>
              exact .inl ⟨w, rfl, getLoop_index_found _ _ _ _ [] hl⟩
          | none =>
              have hoob : a.length ≤ idx := by
                rw [List.getElem?_eq_none_iff] at hl
                omega
              exact .inr ⟨rfl, _, getLoop_index_oob _ _ _ [] hoob⟩
      | null | bool _ | num _ | str _ | obj _ =>
          exact .inr ⟨rfl, _, getLoop_index_nonArray _ _ _ [] rfl⟩
  | keyVariable name => simp [segHasVariable] at hs
  | indexVariable name => simp [segHasVariable] at hs

theorem dfs_getLoop (segs : List Segment)
    (hnv : ∀ s ∈ segs, segHasVariable s = false) :
    ∀ (n i : Nat) (v : Value) (b : List (Str × Value)),
      segs.length - i ≤ n →
      dfsResults segs ⟨v, i, b⟩ =
        (match getLoop (segs.drop i) v [] with
         | .ok w => [(w, b)]
         | .error _ => []) := by
  intro n
  induction n with
  | zero =>
      intro i v b hn
      have hdone : iterDone segs ⟨v, i, b⟩ = true := by
        simp only [iterDone, decide_eq_true_eq]
        omega
      have hdrop : segs.drop i = [] := List.drop_eq_nil_of_le (by omega)
      rw [dfsResults, if_pos hdone, hdrop]
      rfl
  | succ n ih =>
      intro i v b hn
      by_cases hdone : iterDone segs ⟨v, i, b⟩ = true
      · have hge : segs.length ≤ i := by
          simpa [iterDone, decide_eq_true_eq] using hdone
        have hdrop : segs.drop i = [] := List.drop_eq_nil_of_le hge
        rw [dfsResults, if_pos hdone, hdrop]
        rfl
      · have hlt : i < segs.length := by
          simp only [iterDone, decide_eq_true_eq] at hdone
          omega
        have hseg : segs[i]? = some segs[i] := List.getElem?_eq_getElem hlt
        have hdrop : segs.drop i = segs[i] :: segs.drop (i + 1) :=
          List.drop_eq_getElem_cons hlt
        have hmem : segs[i] ∈ segs := List.getElem_mem hlt
        have hs := hnv segs[i] hmem
        have hdfs : dfsResults segs ⟨v, i, b⟩ =
            ((iterChildren segs ⟨v, i, b⟩).map (dfsResults segs)).flatten := by
          rw [dfsResults, if_neg hdone, List.attach_map_coe]
        rw [hdfs, hdrop]
        rcases iterChildren_getLoop_head segs i v b segs[i] hseg hs with
          ⟨w, hch, hgl⟩ | ⟨hch, e, hgl⟩
        · rw [hch, hgl, List.map_cons, List.map_nil, List.flatten_cons,
            List.flatten_nil, List.append_nil, ih (i + 1) w b (by omega)]
        · rw [hch, hgl, List.map_nil, List.flatten_nil]

end Structpath

namespace Structpath

/-- **C10.**  For every path containing no variable segments and every
tree, `iterate` yields exactly one result — the empty binding map paired
with `v` — if and only if `get` of that path with no bindings returns
`Ok(v)`, and yields no results if and only if that `get` call returns an
error. -/
theorem C10_iterate_refines_get :
    ∀ (p : Structpath) (d : Value),
      (∀ s ∈ p.segments, segHasVariable s = false) →
      (∀ v : Value, iterate p d = [(v, [])] ↔ get p d none = .ok v) ∧
      (iterate p d = [] ↔ ∃ e, get p d none = .error e) := by
  intro p d hnv
  have hany : p.segments.any segHasVariable = false := by
    rw [List.any_eq_false]
    intro x hx
    simp [hnv x hx]
  have hget : get p d none = getLoop p.segments d [] := by
    simp [get, hany]
  have hraw : iterLoop false p.segments [⟨d, 0, []⟩] [] =
      dfsResults p.segments ⟨d, 0, []⟩ :=
    iterLoop_false_singleton p.segments hnv p.segments.length _ [] (by omega)
  have hdfs := dfs_getLoop p.segments hnv p.segments.length 0 d [] (by omega)
  rw [List.drop_zero] at hdfs
  have hiter : iterate p d = dedupFirst (dfsResults p.segments ⟨d, 0, []⟩) [] := by
    rw [show iterate p d = iterLoop true p.segments [⟨d, 0, []⟩] [] from rfl,
      iterLoop_true_dedupFirst, hraw]
  cases hg : getLoop p.segments d [] with
  | ok w =>
      rw [hg] at hdfs
      have hres : iterate p d = [(w, [])] := by
        rw [hiter, hdfs]
        simp [dedupFirst]
      refine ⟨fun v => ⟨fun hv => ?_, fun hv => ?_⟩, ⟨fun hv => ?_, fun hv => ?_⟩⟩
      · rw [hres] at hv
        simp only [List.cons.injEq, Prod.mk.injEq, and_true] at hv
        rw [hget, hg, hv]
      · rw [hget, hg] at hv
        injection hv with hv
        rw [hres, hv]
      · rw [hres] at hv
        simp at hv
      · obtain ⟨e, he⟩ := hv
        rw [hget, hg] at he
        simp at he
  | error e =>
      rw [hg] at hdfs
      have hres : iterate p d = [] := by
        rw [hiter, hdfs]
        rfl
      refine ⟨fun v => ⟨fun hv => ?_, fun hv => ?_⟩, ⟨fun hv => ⟨e, ?_⟩, fun hv => hres⟩⟩
      · rw [hres] at hv
        simp at hv
      · rw [hget, hg] at hv
        simp at hv
      · rw [hget, hg]

/-- Witness for C10 at a concrete variable-free path and tree. -/
theorem C10_iterate_refines_get_witness :
    (∀ v : Value,
      iterate ⟨[.key (.string (chars "a"))], []⟩ (.obj [(chars "a", .num 42)]) =
          [(v, [])] ↔
        get ⟨[.key (.string (chars "a"))], []⟩ (.obj [(chars "a", .num 42)]) none =
          .ok v) ∧
    (iterate ⟨[.key (.string (chars "a"))], []⟩ (.obj [(chars "a", .num 42)]) = [] ↔
      ∃ e, get ⟨[.key (.string (chars "a"))], []⟩ (.obj [(chars "a", .num 42)]) none =
        .error e) :=
  C10_iterate_refines_get ⟨[.key (.string (chars "a"))], []⟩
    (.obj [(chars "a", .num 42)]) (by decide)

end Structpath

namespace Structpath

/-- The path `$teams.#teamId.members.#userId` as segments. -/
def teamsSegs : List Segment :=
  [.key (.string (chars "teams")), .keyVariable (chars "teamId"),
   .key (.string (chars "members")), .keyVariable (chars "userId")]

/-- Its registered variable names, in segment order. -/
def teamsVarNames : List Str := [chars "teamId", chars "userId"]

/-- An object whose `"teams"` entry holds one team object per entry of
`teams`, each containing a `"members"` object with the given entries. -/
def teamsTree (teams : List (Str × List (Str × Value))) : Value :=
  .obj [(chars "teams",
    .obj (teams.map (fun t => (t.1, Value.obj [(chars "members", .obj t.2)]))))]

/-- The binding map a completed branch accumulates (insertion order:
`teamId` first, then `userId`). -/
def teamBindings (k u : Str) : List (Str × Value) :=
  [(chars "teamId", .str k), (chars "userId", .str u)]

/-- One result per team member, in team-then-member order. -/
def teamsExpected (teams : List (Str × List (Str × Value))) :
    List (Value × List (Str × Value)) :=
  (teams.map (fun t => t.2.map (fun mu => (mu.2, teamBindings t.1 mu.1)))).flatten

theorem flatten_map_singleton {α β : Type} (l : List α) (f : α → β) :
    ((l.map (fun x => [f x])).flatten) = l.map f := by
  induction l with
  | nil => rfl
  | cons x rest ih => simp [ih]

theorem teams_not_done (v : Value) (b : List (Str × Value)) (i : Nat)
    (h : i < 4) : ¬(iterDone teamsSegs ⟨v, i, b⟩ = true) := by
  simp only [iterDone, teamsSegs, decide_eq_true_eq]
  simp
  omega

theorem teams_done (v : Value) (b : List (Str × Value)) :
    iterDone teamsSegs ⟨v, 4, b⟩ = true := by
  simp [iterDone, teamsSegs]

theorem dfs_team (k : Str) (ms : List (Str × Value)) :
    dfsResults teamsSegs
      ⟨.obj [(chars "members", .obj ms)], 2, [(chars "teamId", .str k)]⟩ =
      ms.map (fun mu => (mu.2, teamBindings k mu.1)) := by
  rw [dfsResults, if_neg (teams_not_done _ _ _ (by omega)), List.attach_map_coe]
  have hch : iterChildren teamsSegs
      ⟨.obj [(chars "members", .obj ms)], 2, [(chars "teamId", .str k)]⟩ =
      [⟨.obj ms, 3, [(chars "teamId", .str k)]⟩] := rfl
  rw [hch, List.map_cons, List.map_nil, List.flatten_cons, List.flatten_nil,
    List.append_nil]
  rw [dfsResults, if_neg (teams_not_done _ _ _ (by omega)), List.attach_map_coe]
  have hch2 : iterChildren teamsSegs ⟨.obj ms, 3, [(chars "teamId", .str k)]⟩ =
      ms.map (fun mu : Str × Value =>
        (⟨mu.2, 4, teamBindings k mu.1⟩ : IterState)) := rfl
  rw [hch2, List.map_map]
  have hmap : (dfsResults teamsSegs ∘ fun mu : Str × Value =>
      (⟨mu.2, 4, teamBindings k mu.1⟩ : IterState)) =
      (fun mu : Str × Value => [(mu.2, teamBindings k mu.1)]) := by
    funext mu
    simp only [Function.comp]
    rw [dfsResults, if_pos (teams_done _ _)]
  rw [hmap, flatten_map_singleton]

theorem dfs_teams_top (teams : List (Str × List (Str × Value))) :
    dfsResults teamsSegs ⟨teamsTree teams, 0, []⟩ = teamsExpected teams := by
  rw [dfsResults, if_neg (teams_not_done _ _ _ (by omega)), List.attach_map_coe]
  have hch : iterChildren teamsSegs ⟨teamsTree teams, 0, []⟩ =
      [⟨.obj (teams.map (fun t => (t.1, Value.obj [(chars "members", .obj t.2)]))),
        1, []⟩] := rfl
  rw [hch, List.map_cons, List.map_nil, List.flatten_cons, List.flatten_nil,
    List.append_nil]
  rw [dfsResults, if_neg (teams_not_done _ _ _ (by omega)), List.attach_map_coe]
  have hch2 : iterChildren teamsSegs
      ⟨.obj (teams.map (fun t => (t.1, Value.obj [(chars "members", .obj t.2)]))),
        1, []⟩ =
      (teams.map (fun t => (t.1, Value.obj [(chars "members", .obj t.2)]))).map
        (fun e => (⟨e.2, 2, [(chars "teamId", .str e.1)]⟩ : IterState)) := rfl
  rw [hch2, List.map_map, List.map_map]
  have hmap : ((dfsResults teamsSegs ∘
      (fun e : Str × Value => (⟨e.2, 2, [(chars "teamId", .str e.1)]⟩ : IterState))) ∘
        (fun t : Str × List (Str × Value) =>
          (t.1, Value.obj [(chars "members", .obj t.2)]))) =
      (fun t : Str × List (Str × Value) =>
        t.2.map (fun mu => (mu.2, teamBindings t.1 mu.1))) := by
    funext t
    simp only [Function.comp]
    exact dfs_team t.1 t.2
  rw [hmap]
  rfl

end Structpath

namespace Structpath

theorem teamBindings_inj (k : Str) : Function.Injective (teamBindings k) := by
  intro u u' h
  simp [teamBindings] at h
  exact h

theorem teamBindings_fst_eq (k k' u u' : Str)
    (h : teamBindings k u = teamBindings k' u') : k = k' := by
  simp [teamBindings] at h
  exact h.1

theorem teamsExpected_snd (teams : List (Str × List (Str × Value))) :
    (teamsExpected teams).map Prod.snd =
      (teams.map (fun t => t.2.map (fun mu => teamBindings t.1 mu.1))).flatten := by
  unfold teamsExpected
  induction teams with
  | nil => rfl
  | cons t rest ih =>
      simp only [List.map_cons, List.flatten_cons, List.map_append, ih,
        List.map_map]
      rfl

theorem teamsExpected_nodup (teams : List (Str × List (Str × Value)))
    (hk : (teams.map Prod.fst).Nodup)
    (hm : ∀ t ∈ teams, (t.2.map Prod.fst).Nodup) :
    ((teamsExpected teams).map Prod.snd).Nodup := by
  rw [teamsExpected_snd]
  induction teams with
  | nil => simp
  | cons t rest ih =>
      simp only [List.map_cons, List.nodup_cons] at hk
      simp only [List.map_cons, List.flatten_cons]
      rw [List.nodup_append]
      refine ⟨?_, ih hk.2 (fun s hs => hm s (by simp [hs])), ?_⟩
      · have : t.2.map (fun mu => teamBindings t.1 mu.1) =
            (t.2.map Prod.fst).map (teamBindings t.1) := by
          rw [List.map_map]
          rfl
        rw [this]
        exact (hm t (by simp)).map (teamBindings_inj t.1)
      · intro b hb hb2
        obtain ⟨mu, -, hbe⟩ := List.mem_map.mp hb
        rw [List.mem_flatten] at hb2
        obtain ⟨l, hl, hbl⟩ := hb2
        obtain ⟨t', ht', hle⟩ := List.mem_map.mp hl
        rw [← hle] at hbl
        obtain ⟨mu', -, hbe'⟩ := List.mem_map.mp hbl
        have hkk : t.1 = t'.1 := teamBindings_fst_eq _ _ _ _ (by rw [hbe, hbe'])
        exact hk.1 (hkk ▸ List.mem_map.mpr ⟨t', ht', rfl⟩)

theorem teamsExpected_length (teams : List (Str × List (Str × Value))) (M : Nat)
    (h : ∀ t ∈ teams, t.2.length = M) :
    (teamsExpected teams).length = teams.length * M := by
  unfold teamsExpected
  induction teams with
  | nil => simp
  | cons t rest ih =>
      simp only [List.map_cons, List.flatten_cons, List.length_append,
        List.length_map, List.length_cons]
      rw [h t (by simp), ih (fun s hs => h s (by simp [hs]))]
      ring

theorem teamsExpected_mem (teams : List (Str × List (Str × Value)))
    (v : Value) (b : List (Str × Value)) :
    (v, b) ∈ teamsExpected teams ↔
      ∃ t ∈ teams, ∃ mu ∈ t.2, v = mu.2 ∧ b = teamBindings t.1 mu.1 := by
  unfold teamsExpected
  rw [List.mem_flatten]
  constructor
  · rintro ⟨l, hl, hbl⟩
    obtain ⟨t, ht, hle⟩ := List.mem_map.mp hl
    rw [← hle] at hbl
    obtain ⟨mu, hmu, hbe⟩ := List.mem_map.mp hbl
    exact ⟨t, ht, mu, hmu, (congrArg Prod.fst hbe).symm,
      (congrArg Prod.snd hbe).symm⟩
  · rintro ⟨t, ht, mu, hmu, rfl, rfl⟩
    exact ⟨t.2.map (fun mu => (mu.2, teamBindings t.1 mu.1)),
      List.mem_map.mpr ⟨t, ht, rfl⟩, List.mem_map.mpr ⟨mu, hmu, rfl⟩⟩

/-- **C8.**  For the path parsed from `$teams.#teamId.members.#userId`
applied to an object whose `"teams"` entry holds `T` team objects, each
containing a `"members"` object with `M` entries, `iterate` yields exactly
`T × M` results, one per distinct `(teamId, userId)` binding pair, each
paired with the member value reached. -/
theorem C8_variable_search_completeness :
    parse (chars "$teams.#teamId.members.#userId") =
      .ok ⟨teamsSegs, teamsVarNames⟩ ∧
    ∀ (teams : List (Str × List (Str × Value))) (M : Nat),
      (teams.map Prod.fst).Nodup →
      (∀ t ∈ teams, t.2.length = M ∧ (t.2.map Prod.fst).Nodup) →
      (iterate ⟨teamsSegs, teamsVarNames⟩ (teamsTree teams)).length =
          teams.length * M ∧
      ((iterate ⟨teamsSegs, teamsVarNames⟩ (teamsTree teams)).map Prod.snd).Nodup ∧
      (∀ (v : Value) (b : List (Str × Value)),
        (v, b) ∈ iterate ⟨teamsSegs, teamsVarNames⟩ (teamsTree teams) ↔
          ∃ t ∈ teams, ∃ mu ∈ t.2, v = mu.2 ∧ b = teamBindings t.1 mu.1) := by
  refine ⟨rfl, ?_⟩
  intro teams M hk hm
  have hperm : (iterLoop false teamsSegs [⟨teamsTree teams, 0, []⟩] []).Perm
      (teamsExpected teams) := by
    have h1 := iterLoop_false_perm teamsSegs [⟨teamsTree teams, 0, []⟩] []
    rw [List.map_cons, List.map_nil, List.flatten_cons, List.flatten_nil,
      List.append_nil, dfs_teams_top] at h1
    exact h1
  have hnodup_exp : ((teamsExpected teams).map Prod.snd).Nodup :=
    teamsExpected_nodup teams hk (fun t ht => (hm t ht).2)
  have hnodup_raw :
      ((iterLoop false teamsSegs [⟨teamsTree teams, 0, []⟩] []).map Prod.snd).Nodup :=
    ((hperm.map Prod.snd).nodup_iff).mpr hnodup_exp
  have hiter : iterate ⟨teamsSegs, teamsVarNames⟩ (teamsTree teams) =
      iterLoop false teamsSegs [⟨teamsTree teams, 0, []⟩] [] := by
    rw [show iterate ⟨teamsSegs, teamsVarNames⟩ (teamsTree teams) =
      iterLoop true teamsSegs [⟨teamsTree teams, 0, []⟩] [] from rfl,
      iterLoop_true_dedupFirst]
    exact dedupFirst_eq_self _ [] hnodup_raw (fun b hb => List.not_mem_nil b)
  refine ⟨?_, ?_, ?_⟩
  · rw [hiter, hperm.length_eq]
    exact teamsExpected_length teams M (fun t ht => (hm t ht).1)
  · rw [hiter]
    exact hnodup_raw
  · intro v b
    rw [hiter, hperm.mem_iff]
    exact teamsExpected_mem teams v b

/-- Witness for C8 at a concrete two-team, two-member tree. -/
theorem C8_variable_search_completeness_witness :
    (iterate ⟨teamsSegs, teamsVarNames⟩ (teamsTree
      [(chars "t1", [(chars "u1", .num 1), (chars "u2", .num 2)]),
       (chars "t2", [(chars "u3", .num 3), (chars "u4", .num 4)])])).length =
      2 * 2 :=
  (C8_variable_search_completeness.2
    [(chars "t1", [(chars "u1", .num 1), (chars "u2", .num 2)]),
     (chars "t2", [(chars "u3", .num 3), (chars "u4", .num 4)])] 2
    (by decide) (by decide)).1

end Structpath

namespace Structpath

mutual

/-- Reference post-order enumeration of a tree: every node of every subtree
in child order, each container after all its descendants, enriched with the
node's tree address (the list of child ordinals from the root) next to the
walker's path and value. -/
def postAddr (a : List Nat) (pth : Structpath) : Value →
    List (List Nat × Structpath × Value)
  | .obj m => postAddrEntries a pth 0 m ++ [(a, pth, .obj m)]
  | .arr l => postAddrElems a pth 0 l ++ [(a, pth, .arr l)]
  | v => [(a, pth, v)]

/-- Post-order enumeration of an object's entries from child ordinal `j`. -/
def postAddrEntries (a : List Nat) (pth : Structpath) (j : Nat) :
    List (Str × Value) → List (List Nat × Structpath × Value)
  | [] => []
  | (k, w) :: rest =>
      postAddr (a ++ [j]) (pushSeg pth (walkKeySeg k)) w ++
        postAddrEntries a pth (j + 1) rest

/-- Post-order enumeration of an array's elements from index `j`. -/
def postAddrElems (a : List Nat) (pth : Structpath) (j : Nat) :
    List Value → List (List Nat × Structpath × Value)
  | [] => []
  | w :: rest =>
      postAddr (a ++ [j]) (pth.push_index j) w ++ postAddrElems a pth (j + 1) rest

end

/-- Forget the address component. -/
def projAddr (e : List Nat × Structpath × Value) : Structpath × Value :=
  (e.2.1, e.2.2)

theorem walkLoop_nil : walkLoop [] = [] := by
  simp only [walkLoop]

theorem walkLoop_processed_step (pth : Structpath) (v : Value)
    (rest : List WalkItem) :
    walkLoop (⟨pth, v, true⟩ :: rest) = (pth, v) :: walkLoop rest := by
  simp only [walkLoop]
  simp

theorem walkLoop_unproc_obj (pth : Structpath) (m : List (Str × Value))
    (rest : List WalkItem) :
    walkLoop (⟨pth, .obj m, false⟩ :: rest) =
      walkLoop (objChildren pth m ++ (⟨pth, .obj m, true⟩ :: rest)) := by
  simp only [walkLoop]
  simp

theorem walkLoop_unproc_arr (pth : Structpath) (l : List Value)
    (rest : List WalkItem) :
    walkLoop (⟨pth, .arr l, false⟩ :: rest) =
      walkLoop (arrChildren pth 0 l ++ (⟨pth, .arr l, true⟩ :: rest)) := by
  simp only [walkLoop]
  simp

theorem walkLoop_unproc_scalar (pth : Structpath) (v : Value)
    (rest : List WalkItem) (hobj : v.isObj = false) (harr : v.isArr = false) :
    walkLoop (⟨pth, v, false⟩ :: rest) = (pth, v) :: walkLoop rest := by
  cases v <;> simp_all [Value.isObj, Value.isArr] <;> simp only [walkLoop] <;> simp

theorem walk_entries_decomp (n : Nat)
    (ihA : ∀ v, sizeV v ≤ n → ∀ (a : List Nat) (pth : Structpath)
      (rest : List WalkItem),
      walkLoop (⟨pth, v, false⟩ :: rest) =
        (postAddr a pth v).map projAddr ++ walkLoop rest) :
    ∀ (m : List (Str × Value)), sizeEntries m ≤ n →
      ∀ (a : List Nat) (pth : Structpath) (j : Nat) (q : List WalkItem),
        walkLoop (objChildren pth m ++ q) =
          (postAddrEntries a pth j m).map projAddr ++ walkLoop q := by
  intro m
  induction m with
  | nil => intro hm a pth j q; simp [objChildren, postAddrEntries]
  | cons e rest ih =>
      intro hm a pth j q
      obtain ⟨k, w⟩ := e
      simp only [sizeEntries] at hm
      have hw : sizeV w ≤ n := by omega
      have hrest : sizeEntries rest ≤ n := by
        have := sizeV_pos w
        omega
      simp only [objChildren, List.cons_append]
      rw [ihA w hw (a ++ [j]) (pushSeg pth (walkKeySeg k))
        (objChildren pth rest ++ q)]
      rw [ih hrest a pth (j + 1) q]
      simp [postAddrEntries, List.map_append, List.append_assoc]

theorem walk_elems_decomp (n : Nat)
    (ihA : ∀ v, sizeV v ≤ n → ∀ (a : List Nat) (pth : Structpath)
      (rest : List WalkItem),
      walkLoop (⟨pth, v, false⟩ :: rest) =
        (postAddr a pth v).map projAddr ++ walkLoop rest) :
    ∀ (l : List Value), sizeElems l ≤ n →
      ∀ (a : List Nat) (pth : Structpath) (j : Nat) (q : List WalkItem),
        walkLoop (arrChildren pth j l ++ q) =
          (postAddrElems a pth j l).map projAddr ++ walkLoop q := by
  intro l
  induction l with
  | nil => intro hl a pth j q; simp [arrChildren, postAddrElems]
  | cons w rest ih =>
      intro hl a pth j q
      simp only [sizeElems] at hl
      have hw : sizeV w ≤ n := by omega
      have hrest : sizeElems rest ≤ n := by
        have := sizeV_pos w
        omega
      simp only [arrChildren, List.cons_append]
      rw [ihA w hw (a ++ [j]) (pth.push_index j) (arrChildren pth (j + 1) rest ++ q)]
      rw [ih hrest a pth (j + 1) q]
      simp [postAddrElems, List.map_append, List.append_assoc]

theorem walkLoop_decomp :
    ∀ (n : Nat) (v : Value), sizeV v ≤ n →
      ∀ (a : List Nat) (pth : Structpath) (rest : List WalkItem),
        walkLoop (⟨pth, v, false⟩ :: rest) =
          (postAddr a pth v).map projAddr ++ walkLoop rest := by
  intro n
  induction n with
  | zero =>
      intro v hv
      have := sizeV_pos v
      omega
  | succ n ih =>
      intro v hv a pth rest
      cases v with
      | obj m =>
          have hm : sizeEntries m ≤ n := by
            simp only [sizeV] at hv
            omega
          rw [walkLoop_unproc_obj,
            walk_entries_decomp n ih m hm a pth 0 (⟨pth, .obj m, true⟩ :: rest),
            walkLoop_processed_step]
          simp [postAddr, List.map_append, projAddr]
      | arr l =>
          have hl : sizeElems l ≤ n := by
            simp only [sizeV] at hv
            omega
          rw [walkLoop_unproc_arr,
            walk_elems_decomp n ih l hl a pth 0 (⟨pth, .arr l, true⟩ :: rest),
            walkLoop_processed_step]
          simp [postAddr, List.map_append, projAddr]
      | null =>
          rw [walkLoop_unproc_scalar pth Value.null rest rfl rfl]
          simp [postAddr, projAddr]
      | bool b =>
          rw [walkLoop_unproc_scalar pth (Value.bool b) rest rfl rfl]
          simp [postAddr, projAddr]
      | num x =>
          rw [walkLoop_unproc_scalar pth (Value.num x) rest rfl rfl]
          simp [postAddr, projAddr]
      | str s =>
          rw [walkLoop_unproc_scalar pth (Value.str s) rest rfl rfl]
          simp [postAddr, projAddr]

end Structpath

namespace Structpath

theorem postAddr_length :
    ∀ (n : Nat) (v : Value), sizeV v ≤ n → ∀ (a : List Nat) (pth : Structpath),
      (postAddr a pth v).length = sizeV v := by
  intro n
  induction n with
  | zero =>
      intro v hv
      have := sizeV_pos v
      omega
  | succ n ih =>
      intro v hv a pth
      cases v with
      | obj m =>
          simp only [sizeV] at hv ⊢
          have hlen : ∀ (m' : List (Str × Value)), sizeEntries m' ≤ n →
              ∀ (a' : List Nat) (pth' : Structpath) (j : Nat),
              (postAddrEntries a' pth' j m').length = sizeEntries m' := by
            intro m'
            induction m' with
            | nil => intro hm a' pth' j; simp [postAddrEntries, sizeEntries]
            | cons e rest ihm =>
                intro hm a' pth' j
                obtain ⟨k, w⟩ := e
                simp only [sizeEntries] at hm ⊢
                have := sizeV_pos w
                simp only [postAddrEntries, List.length_append]
                rw [ih w (by omega) (a' ++ [j]) (pushSeg pth' (walkKeySeg k)),
                  ihm (by omega) a' pth' (j + 1)]
          simp only [postAddr, List.length_append, List.length_cons,
            List.length_nil]
          rw [hlen m (by omega) a pth 0]
          omega
      | arr l =>
          simp only [sizeV] at hv ⊢
          have hlen : ∀ (l' : List Value), sizeElems l' ≤ n →
              ∀ (a' : List Nat) (pth' : Structpath) (j : Nat),
              (postAddrElems a' pth' j l').length = sizeElems l' := by
            intro l'
            induction l' with
            | nil => intro hl a' pth' j; simp [postAddrElems, sizeElems]
            | cons w rest ihl =>
                intro hl a' pth' j
                simp only [sizeElems] at hl ⊢
                have := sizeV_pos w
                simp only [postAddrElems, List.length_append]
                rw [ih w (by omega) (a' ++ [j]) (pth'.push_index j),
                  ihl (by omega) a' pth' (j + 1)]
          simp only [postAddr, List.length_append, List.length_cons,
            List.length_nil]
          rw [hlen l (by omega) a pth 0]
          omega
      | null => rfl
      | bool b => rfl
      | num x => rfl
      | str s => rfl

theorem postAddr_getLast (a : List Nat) (pth : Structpath) (v : Value) :
    (postAddr a pth v).getLast? = some (a, pth, v) := by
  cases v with
  | obj m => simp [postAddr, List.getLast?_concat]
  | arr l => simp [postAddr, List.getLast?_concat]
  | null => rfl
  | bool b => rfl
  | num x => rfl
  | str s => rfl

/-- Strict tree-ancestry on addresses: `x` is a proper ancestor of `y`. -/
def properAncestorAddr (x y : List Nat) : Prop := x ≠ y ∧ ∃ t, y = x ++ t

theorem postAddrEntries_shape (n : Nat)
    (ihA : ∀ v, sizeV v ≤ n → ∀ (a : List Nat) (pth : Structpath),
      ∀ e ∈ postAddr a pth v, ∃ t, e.1 = a ++ t) :
    ∀ (m : List (Str × Value)), sizeEntries m ≤ n →
      ∀ (a : List Nat) (pth : Structpath) (j : Nat),
        ∀ e ∈ postAddrEntries a pth j m, ∃ j' t, j ≤ j' ∧ e.1 = a ++ j' :: t := by
  intro m
  induction m with
  | nil => intro hm a pth j e he; simp [postAddrEntries] at he
  | cons ent rest ih =>
      intro hm a pth j e he
      obtain ⟨k, w⟩ := ent
      simp only [sizeEntries] at hm
      have hwpos := sizeV_pos w
      rw [postAddrEntries, List.mem_append] at he
      rcases he with he | he
      · obtain ⟨t, ht⟩ := ihA w (by omega) (a ++ [j]) (pushSeg pth (walkKeySeg k)) e he
        exact ⟨j, t, le_refl j, by rw [ht, List.append_assoc]; rfl⟩
      · obtain ⟨j', t, hj, ht⟩ := ih (by omega) a pth (j + 1) e he
        exact ⟨j', t, by omega, ht⟩

theorem postAddrElems_shape (n : Nat)
    (ihA : ∀ v, sizeV v ≤ n → ∀ (a : List Nat) (pth : Structpath),
      ∀ e ∈ postAddr a pth v, ∃ t, e.1 = a ++ t) :
    ∀ (l : List Value), sizeElems l ≤ n →
      ∀ (a : List Nat) (pth : Structpath) (j : Nat),
        ∀ e ∈ postAddrElems a pth j l, ∃ j' t, j ≤ j' ∧ e.1 = a ++ j' :: t := by
  intro l
  induction l with
  | nil => intro hl a pth j e he; simp [postAddrElems] at he
  | cons w rest ih =>
      intro hl a pth j e he
      simp only [sizeElems] at hl
      have hwpos := sizeV_pos w
      rw [postAddrElems, List.mem_append] at he
      rcases he with he | he
      · obtain ⟨t, ht⟩ := ihA w (by omega) (a ++ [j]) (pth.push_index j) e he
        exact ⟨j, t, le_refl j, by rw [ht, List.append_assoc]; rfl⟩
      · obtain ⟨j', t, hj, ht⟩ := ih (by omega) a pth (j + 1) e he
        exact ⟨j', t, by omega, ht⟩

theorem postAddr_shape :
    ∀ (n : Nat) (v : Value), sizeV v ≤ n → ∀ (a : List Nat) (pth : Structpath),
      ∀ e ∈ postAddr a pth v, ∃ t, e.1 = a ++ t := by
  intro n
  induction n with
  | zero =>
      intro v hv
      have := sizeV_pos v
      omega
  | succ n ih =>
      intro v hv a pth e he
      cases v with
      | obj m =>
          simp only [sizeV] at hv
          rw [postAddr, List.mem_append] at he
          rcases he with he | he
          · obtain ⟨j', t, -, ht⟩ :=
              postAddrEntries_shape n ih m (by omega) a pth 0 e he
            exact ⟨j' :: t, ht⟩
          · simp only [List.mem_singleton] at he
            exact ⟨[], by rw [he, List.append_nil]⟩
      | arr l =>
          simp only [sizeV] at hv
          rw [postAddr, List.mem_append] at he
          rcases he with he | he
          · obtain ⟨j', t, -, ht⟩ :=
              postAddrElems_shape n ih l (by omega) a pth 0 e he
            exact ⟨j' :: t, ht⟩
          · simp only [List.mem_singleton] at he
            exact ⟨[], by rw [he, List.append_nil]⟩
      | null | bool _ | num _ | str _ =>
          · simp only [postAddr, List.mem_singleton] at he
            exact ⟨[], by rw [he, List.append_nil]⟩

/-- The post-order emission discipline as a pairwise relation: no entry is
a strict ancestor of a later entry — every descendant is emitted before
each of its ancestors. -/
def noAncestorBefore (x y : List Nat × Structpath × Value) : Prop :=
  ¬ properAncestorAddr x.1 y.1

theorem cross_blocks_not_ancestor (a : List Nat) (j1 j2 : Nat) (t1 t2 : List Nat)
    (hne : j1 ≠ j2) :
    ¬ properAncestorAddr (a ++ j1 :: t1) (a ++ j2 :: t2) := by
  rintro ⟨-, t3, ht⟩
  rw [List.append_assoc] at ht
  have := List.append_cancel_left ht
  rw [List.cons_append] at this
  exact hne (List.cons.inj this).1.symm

theorem child_not_ancestor_of_self (a : List Nat) (j : Nat) (t : List Nat) :
    ¬ properAncestorAddr (a ++ j :: t) a := by
  rintro ⟨-, t2, ht⟩
  have := congrArg List.length ht
  simp at this

theorem postAddrEntries_pairwise (n : Nat)
    (ihA : ∀ v, sizeV v ≤ n → ∀ (a : List Nat) (pth : Structpath),
      List.Pairwise noAncestorBefore (postAddr a pth v)) :
    ∀ (m : List (Str × Value)), sizeEntries m ≤ n →
      ∀ (a : List Nat) (pth : Structpath) (j : Nat),
        List.Pairwise noAncestorBefore (postAddrEntries a pth j m) := by
  intro m
  induction m with
  | nil => intro hm a pth j; simp [postAddrEntries]
  | cons ent rest ih =>
      intro hm a pth j
      obtain ⟨k, w⟩ := ent
      simp only [sizeEntries] at hm
      have hwpos := sizeV_pos w
      have hw : sizeV w ≤ n := by omega
      rw [postAddrEntries, List.pairwise_append]
      refine ⟨ihA w hw (a ++ [j]) (pushSeg pth (walkKeySeg k)),
        ih (by omega) a pth (j + 1), ?_⟩
      intro x hx y hy
      obtain ⟨tx, htx⟩ := postAddr_shape n w hw (a ++ [j])
        (pushSeg pth (walkKeySeg k)) x hx
      obtain ⟨j', ty, hj, hty⟩ := postAddrEntries_shape n
        (fun v hv => postAddr_shape n v hv) rest (by omega) a pth (j + 1) y hy
      unfold noAncestorBefore
      rw [htx, hty, List.append_assoc]
      exact cross_blocks_not_ancestor a j j' (tx) ty (by omega)

theorem postAddrElems_pairwise (n : Nat)
    (ihA : ∀ v, sizeV v ≤ n → ∀ (a : List Nat) (pth : Structpath),
      List.Pairwise noAncestorBefore (postAddr a pth v)) :
    ∀ (l : List Value), sizeElems l ≤ n →
      ∀ (a : List Nat) (pth : Structpath) (j : Nat),
        List.Pairwise noAncestorBefore (postAddrElems a pth j l) := by
  intro l
  induction l with
  | nil => intro hl a pth j; simp [postAddrElems]
  | cons w rest ih =>
      intro hl a pth j
      simp only [sizeElems] at hl
      have hwpos := sizeV_pos w
      have hw : sizeV w ≤ n := by omega
      rw [postAddrElems, List.pairwise_append]
      refine ⟨ihA w hw (a ++ [j]) (pth.push_index j),
        ih (by omega) a pth (j + 1), ?_⟩
      intro x hx y hy
      obtain ⟨tx, htx⟩ := postAddr_shape n w hw (a ++ [j]) (pth.push_index j) x hx
      obtain ⟨j', ty, hj, hty⟩ := postAddrElems_shape n
        (fun v hv => postAddr_shape n v hv) rest (by omega) a pth (j + 1) y hy
      unfold noAncestorBefore
      rw [htx, hty, List.append_assoc]
      exact cross_blocks_not_ancestor a j j' tx ty (by omega)

theorem postAddr_pairwise :
    ∀ (n : Nat) (v : Value), sizeV v ≤ n → ∀ (a : List Nat) (pth : Structpath),
      List.Pairwise noAncestorBefore (postAddr a pth v) := by
  intro n
  induction n with
  | zero =>
      intro v hv
      have := sizeV_pos v
      omega
  | succ n ih =>
      intro v hv a pth
      cases v with
      | obj m =>
          simp only [sizeV] at hv
          rw [postAddr, List.pairwise_append]
          refine ⟨postAddrEntries_pairwise n ih m (by omega) a pth 0,
            List.pairwise_singleton _ _, ?_⟩
          intro x hx y hy
          simp only [List.mem_singleton] at hy
          obtain ⟨j', t, -, ht⟩ := postAddrEntries_shape n
            (fun w hw => postAddr_shape n w hw) m (by omega) a pth 0 x hx
          unfold noAncestorBefore
          rw [ht, hy]
          exact child_not_ancestor_of_self a j' t
      | arr l =>
          simp only [sizeV] at hv
          rw [postAddr, List.pairwise_append]
          refine ⟨postAddrElems_pairwise n ih l (by omega) a pth 0,
            List.pairwise_singleton _ _, ?_⟩
          intro x hx y hy
          simp only [List.mem_singleton] at hy
          obtain ⟨j', t, -, ht⟩ := postAddrElems_shape n
            (fun w hw => postAddr_shape n w hw) l (by omega) a pth 0 x hx
          unfold noAncestorBefore
          rw [ht, hy]
          exact child_not_ancestor_of_self a j' t
      | null | bool _ | num _ | str _ =>
          · simp [postAddr]

end Structpath

namespace Structpath

/-- **C5.**  For every tree with `N` total nodes (counting every scalar,
array and object, the root included), `walk` yields exactly `N`
`(path, value)` pairs; the emission order is the post-order depth-first
enumeration `postAddr`, whose pairwise property says every descendant's
emission index precedes its ancestor's; and the root is emitted last with
the empty path. -/
theorem C5_walk_postorder :
    ∀ v : Value,
      walkList v = (postAddr [] Structpath.new v).map projAddr ∧
      (walkList v).length = sizeV v ∧
      (walkList v).getLast? = some (Structpath.new, v) ∧
      List.Pairwise noAncestorBefore (postAddr [] Structpath.new v) := by
  intro v
  have hdec : walkList v = (postAddr [] Structpath.new v).map projAddr := by
    unfold walkList
    rw [walkLoop_decomp (sizeV v) v (le_refl _) [] Structpath.new [],
      walkLoop_nil, List.append_nil]
  refine ⟨hdec, ?_, ?_,
    postAddr_pairwise (sizeV v) v (le_refl _) [] Structpath.new⟩
  · rw [hdec, List.length_map, postAddr_length (sizeV v) v (le_refl _)]
  · rw [hdec, List.getLast?_map, postAddr_getLast]
    rfl

end Structpath

namespace Structpath

/-- **C7, counterexample.**  The plain segment of `$#a\.b` contains an
escaped character (`\.`), yet it parses to `KeyVariable("a.b")`, not to a
string key: the variable check runs before the escape flags are consulted,
so "a plain segment containing any escaped character is always a string
key" fails on variable segments. -/
theorem C7_counterexample :
    parse (chars "$#a\\.b") =
      .ok ⟨[.keyVariable (chars "a.b")], [chars "a.b"]⟩ ∧
    ∀ s : Str, Segment.keyVariable (chars "a.b") ≠ .key (.string s) :=
  ⟨rfl, fun s h => Segment.noConfusion h⟩

/-- **C7, amended.**  Formatting `Key(Int 123)` emits `$123` and
`Key(String "123")` emits `$\123`, and each parses back to its original
`SegmentKey` variant.  A non-escaped, non-variable plain segment is
classified as an `Int` key exactly when its full text parses as a signed
64-bit integer; a non-variable plain segment with any escaped character
(first-char-escaped or escaped-segment flag) is always a string key; and a
variable-marked segment `#name` takes precedence over both rules. -/
theorem C7_int_string_disambiguation :
    to_string ⟨[.key (.int 123)], []⟩ = chars "$123" ∧
    to_string ⟨[.key (.string (chars "123"))], []⟩ = chars "$\\123" ∧
    parse (chars "$123") = .ok ⟨[.key (.int 123)], []⟩ ∧
    parse (chars "$\\123") = .ok ⟨[.key (.string (chars "123"))], []⟩ ∧
    (∀ (p : Structpath) (s : Str),
      process_segment p s false false false false =
        .ok (match i64Parse s with
             | some n => p.push_int_key n
             | none => p.push_string_key s)) ∧
    (∀ (p : Structpath) (s : Str) (fce ies : Bool), (fce || ies) = true →
      process_segment p s fce ies false false = .ok (p.push_string_key s)) ∧
    (∀ (p : Structpath) (r : Str) (fce ies : Bool), r ≠ [] →
      process_segment p ('#' :: r) fce ies true false = p.push_key_variable r) := by
  refine ⟨rfl, rfl, rfl, rfl, ?_, ?_, ?_⟩
  · intro p s
    cases hp : i64Parse s <;> simp [process_segment, hp]
  · intro p s fce ies h
    simp [process_segment, h]
  · intro p r fce ies hr
    cases r with
    | nil => exact absurd rfl hr
    | cons c rest => simp [process_segment, startsWithHashLong]

/-- Witness for the amended C7 at concrete segment texts. -/
theorem C7_int_string_disambiguation_witness :
    process_segment Structpath.new (chars "7") true false false false =
      .ok (Structpath.new.push_string_key (chars "7")) ∧
    process_segment Structpath.new ('#' :: chars "v") false false true false =
      Structpath.new.push_key_variable (chars "v") :=
  ⟨C7_int_string_disambiguation.2.2.2.2.2.1 Structpath.new (chars "7") true false rfl,
   C7_int_string_disambiguation.2.2.2.2.2.2 Structpath.new (chars "v") false false
     (by decide)⟩

end Structpath

namespace Structpath

/-- **C2, counterexample.**  `$[\#x]` parses to `IndexVariable("x")`: the
bracket-close handler classifies the accumulated text by its leading `#`
without consulting the escape flags, so the escaped `#` is reinterpreted
as a variable marker — the claim says this input does not parse to an
`IndexVariable` segment. -/
theorem C2_counterexample :
    parse (chars "$[\\#x]") =
      .ok ⟨[.indexVariable (chars "x")], [chars "x"]⟩ := rfl

theorem consume_in_brackets (x : Str) (hx : ∀ c ∈ x, c ≠ ']' ∧ c ≠ '\\') :
    ∀ st : PState, st.esc = false → st.inB = true →
      List.foldlM pstep st x = .ok { st with cur := st.cur ++ x } := by
  induction x with
  | nil =>
      intro st hesc hinB
      rw [List.append_nil]
      rfl
  | cons c rest ih =>
      intro st hesc hinB
      obtain ⟨hc1, hc2⟩ := hx c (by simp)
      have hstep : pstep st c = .ok { st with cur := st.cur ++ [c] } := by
        simp [pstep, hesc, hinB, hc1, hc2]
      rw [List.foldlM_cons, hstep]
      simp only [except_ok_bind]
      rw [ih (fun d hd => hx d (by simp [hd])) { st with cur := st.cur ++ [c] }
        hesc hinB]
      simp [List.append_assoc]

end Structpath

namespace Structpath

/-- **C2, amended.**  Outside brackets a backslash escapes the next
character literally: `$\c` always parses to the string key `c`, never to a
delimiter, an integer key, or a variable, for every character `c`.  Inside
brackets the escape only keeps the character from closing the bracket; the
bracket segment's classification ignores the escape flags, so for every
nonempty variable-name text `x` (free of `]` and `\`) the input `$[\#x]`
parses to `IndexVariable(x)`, and the escaped digit of `$[\5]` still forms
the index 5. -/
theorem C2_escape_context_amended :
    (∀ c : Char, parse (chars "$\\" ++ [c]) = .ok ⟨[.key (.string [c])], []⟩) ∧
    (∀ x : Str, x ≠ [] → (∀ c ∈ x, c ≠ ']' ∧ c ≠ '\\') →
      parse (chars "$[\\#" ++ (x ++ [']'])) = .ok ⟨[.indexVariable x], [x]⟩) ∧
    parse (chars "$[\\5]") = .ok ⟨[.index 5], []⟩ := by
  refine ⟨?_, ?_, rfl⟩
  · intro c
    show parse ('$' :: '\\' :: [c]) = _
    simp only [parse, List.foldlM_cons, List.foldlM_nil]
    have h1 : pstep initState '\\' = .ok { initState with esc := true } := rfl
    rw [h1]
    simp only [except_ok_bind]
    have h2 : pstep { initState with esc := true } c =
        .ok ⟨Structpath.new, [c], false, false, true,
          (if byteLen [c] = 1 then true else false), false⟩ := rfl
    rw [h2]
    simp [process_segment, Structpath.push_string_key, Structpath.new]
  · intro x hne hx
    show parse ('$' :: '[' :: '\\' :: '#' :: (x ++ [']'])) = _
    obtain ⟨x0, xr, rfl⟩ : ∃ x0 xr, x = x0 :: xr := by
      cases x with
      | nil => exact absurd rfl hne
      | cons a l => exact ⟨a, l, rfl⟩
    simp only [parse, List.foldlM_cons]
    have h1 : pstep initState '[' = .ok { initState with inB := true } := rfl
    have h2 : pstep { initState with inB := true } '\\' =
        .ok { initState with inB := true, esc := true } := rfl
    have h3 : pstep { initState with inB := true, esc := true } '#' =
        .ok ⟨Structpath.new, ['#'], true, false, true, true, false⟩ := rfl
    rw [h1]
    simp only [except_ok_bind]
    rw [h2]
    simp only [except_ok_bind]
    rw [h3]
    simp only [except_ok_bind]
    rw [List.foldlM_append]
    rw [consume_in_brackets (x0 :: xr) hx
      ⟨Structpath.new, ['#'], true, false, true, true, false⟩ rfl rfl]
    simp only [except_ok_bind]
    rw [List.foldlM_cons]
    simp only [List.foldlM_nil]
    have h4 : pstep ⟨Structpath.new, ['#'] ++ (x0 :: xr), true, false, true,
        true, false⟩ ']' =
        .ok ⟨⟨[.indexVariable (x0 :: xr)], [x0 :: xr]⟩, [], false, false,
          false, false, false⟩ := by
      simp [pstep, startsWithHashLong, Structpath.push_index_variable,
        Structpath.new, initState]
    rw [h4]
    simp [initState, Structpath.new]

theorem C2_escape_context_amended_witness :
    parse (chars "$\\" ++ ['.']) = .ok ⟨[.key (.string ['.'])], []⟩ ∧
    parse (chars "$[\\#" ++ (chars "x" ++ [']'])) =
      .ok ⟨[.indexVariable (chars "x")], [chars "x"]⟩ :=
  ⟨C2_escape_context_amended.1 '.',
   C2_escape_context_amended.2.1 (chars "x") (by decide) (by decide)⟩

end Structpath
namespace Structpath

/-- An ASCII digit is none of the five structural characters. -/
theorem digit_not_special (c : Char) (h : isDigitChar c = true) :
    isSpecialChar c = false := by
  by_contra hs
  rw [Bool.not_eq_false] at hs
  simp only [isSpecialChar, Bool.or_eq_true, decide_eq_true_eq] at hs
  rcases hs with ((((rfl | rfl) | rfl) | rfl) | rfl) <;> revert h <;> decide

/-- Digit characters decode to their value. -/
theorem digitVal_natDigitChar : ∀ m, m < 10 → digitVal (natDigitChar m) = m := by
  decide

/-- Digit characters pass the digit test. -/
theorem isDigitChar_natDigitChar : ∀ m, m < 10 →
    isDigitChar (natDigitChar m) = true := by decide

/-- Appending one digit multiplies the accumulated value by ten. -/
theorem natFromDigits_append (ds : Str) (c : Char) :
    natFromDigits (ds ++ [c]) = 10 * natFromDigits ds + digitVal c := by
  simp [natFromDigits, List.foldl_append]

/-- `natDigits` is a nonempty all-digit string decoding to its input. -/
theorem natDigits_spec : ∀ n : Nat,
    natDigits n ≠ [] ∧ (∀ c ∈ natDigits n, isDigitChar c = true) ∧
      natFromDigits (natDigits n) = n := by
  intro n
  induction n using Nat.strong_induction_on with
  | _ n ih =>
    rw [natDigits_eq n]
    by_cases h10 : n < 10
    · rw [if_pos h10]
      refine ⟨by simp, ?_, ?_⟩
      · intro c hc
        rw [List.mem_singleton] at hc
        subst hc
        exact isDigitChar_natDigitChar n h10
      · simp [natFromDigits, digitVal_natDigitChar n h10]
    · rw [if_neg h10]
      obtain ⟨hne, hall, hval⟩ := ih (n / 10) (by omega)
      refine ⟨by simp, ?_, ?_⟩
      · intro c hc
        rw [List.mem_append] at hc
        rcases hc with hc | hc
        · exact hall c hc
        · rw [List.mem_singleton] at hc
          subst hc
          exact isDigitChar_natDigitChar _ (Nat.mod_lt _ (by omega))
      · rw [natFromDigits_append, hval,
          digitVal_natDigitChar _ (Nat.mod_lt _ (by omega))]
        omega

end Structpath
namespace Structpath

/-- A nonempty list headed by anything but `#` fails the variable test. -/
theorem startsWithHashLong_eq_false (d : Char) (ds : Str) (hd : d ≠ '#') :
    startsWithHashLong (d :: ds) = false := by
  rw [startsWithHashLong.eq_def]
  split
  · rename_i heq
    first
    | (simp only [List.cons.injEq] at heq; exact absurd heq.1 hd)
    | (simp only [List.cons.injEq] at heq; exact absurd heq.1.symm hd)
  · rfl

/-- `usize` parsing ignores its `+`-stripping on a string with no sign. -/
theorem matchPlus_eq (s : Str) (hs : ∀ rest, s ≠ '+' :: rest) :
    (match s with
     | '+' :: rest => rest
     | _ => s) = s := by
  split
  · rename_i rest h
    exact absurd rfl (h rest)
  · rfl

/-- `u64Parse` on a string with no leading `+`. -/
theorem u64Parse_eq (s : Str) (hs : ∀ rest, s ≠ '+' :: rest) :
    u64Parse s =
      if s.isEmpty then none
      else if s.all isDigitChar then
        if natFromDigits s ≤ usizeMax then some (natFromDigits s) else none
      else none := by
  have hm := matchPlus_eq s hs
  simp only [u64Parse, hm]

/-- Rendering a natural number and reparsing it as `usize` round-trips. -/
theorem u64Parse_natDigits (n : Nat) (h : n ≤ usizeMax) :
    u64Parse (natDigits n) = some n := by
  obtain ⟨hne, hall, hval⟩ := natDigits_spec n
  rw [u64Parse_eq (natDigits n) ?hplus]
  case hplus =>
    intro rest heq
    have hp : isDigitChar '+' = true :=
      hall '+' (by rw [heq]; exact List.mem_cons_self _ _)
    revert hp; decide
  have h1 : (natDigits n).isEmpty = false := by
    cases hds : natDigits n with
    | nil => exact absurd hds hne
    | cons a l => rfl
  have h2 : (natDigits n).all isDigitChar = true := List.all_eq_true.mpr hall
  simp [h1, h2, hval, h]

/-- The sign-stripping match of `i64Parse` on a string with no sign. -/
theorem matchSign_eq (s : Str) (h1 : ∀ rest, s ≠ '-' :: rest)
    (h2 : ∀ rest, s ≠ '+' :: rest) :
    (match s with
     | '-' :: rest => (true, rest)
     | '+' :: rest => (false, rest)
     | _ => (false, s)) = (false, s) := by
  split
  · rename_i rest g1 g2
    exact absurd rfl (g1 rest)
  · rename_i rest g1 g2
    exact absurd rfl (g2 rest)
  · rfl

/-- `i64Parse` on a string with no leading sign. -/
theorem i64Parse_eq (s : Str) (h1 : ∀ rest, s ≠ '-' :: rest)
    (h2 : ∀ rest, s ≠ '+' :: rest) :
    i64Parse s =
      if s.isEmpty then none
      else if s.all isDigitChar then
        if i64Min ≤ (natFromDigits s : Int) ∧ (natFromDigits s : Int) ≤ i64Max
        then some (natFromDigits s : Int) else none
      else none := by
  have hm := matchSign_eq s h1 h2
  simp [i64Parse, hm]

/-- `i64Parse` on a `-`-prefixed string. -/
theorem i64Parse_neg_eq (t : Str) :
    i64Parse ('-' :: t) =
      if t.isEmpty then none
      else if t.all isDigitChar then
        if i64Min ≤ -(natFromDigits t : Int) ∧ -(natFromDigits t : Int) ≤ i64Max
        then some (-(natFromDigits t : Int)) else none
      else none := by
  simp [i64Parse]

/-- `i64Parse` on a `+`-prefixed string. -/
theorem i64Parse_plus_eq (t : Str) :
    i64Parse ('+' :: t) =
      if t.isEmpty then none
      else if t.all isDigitChar then
        if i64Min ≤ (natFromDigits t : Int) ∧ (natFromDigits t : Int) ≤ i64Max
        then some (natFromDigits t : Int) else none
      else none := by
  simp [i64Parse]

end Structpath
namespace Structpath

/-- A digit string never starts with a sign character. -/
theorem natDigits_no_sign (n : Nat) (c : Char)
    (hc : c = '-' ∨ c = '+' ∨ c = '#') :
    ∀ rest, natDigits n ≠ c :: rest := by
  intro rest heq
  have hd : isDigitChar c = true :=
    (natDigits_spec n).2.1 c (by rw [heq]; exact List.mem_cons_self _ _)
  rcases hc with rfl | rfl | rfl <;> revert hd <;> decide

/-- Rendering an in-range `i64` and reparsing it round-trips. -/
theorem i64Parse_intRender (i : Int) (hlo : i64Min ≤ i) (hhi : i ≤ i64Max) :
    i64Parse (intRender i) = some i := by
  by_cases hneg : i < 0
  · rw [show intRender i = '-' :: natDigits (-i).toNat from by
      simp [intRender, hneg]]
    obtain ⟨hne, hall, hval⟩ := natDigits_spec (-i).toNat
    have h1 : (natDigits (-i).toNat).isEmpty = false := by
      cases hds : natDigits (-i).toNat with
      | nil => exact absurd hds hne
      | cons a l => rfl
    have h2 : (natDigits (-i).toNat).all isDigitChar = true :=
      List.all_eq_true.mpr hall
    rw [i64Parse_neg_eq, h1, h2, hval]
    have hv : -(((-i).toNat : Nat) : Int) = i := by omega
    rw [hv]
    simp [hlo, hhi]
  · have hneg' : ¬ i < 0 := hneg
    rw [show intRender i = natDigits i.toNat from by simp [intRender, hneg']]
    obtain ⟨hne, hall, hval⟩ := natDigits_spec i.toNat
    have h1 : (natDigits i.toNat).isEmpty = false := by
      cases hds : natDigits i.toNat with
      | nil => exact absurd hds hne
      | cons a l => rfl
    have h2 : (natDigits i.toNat).all isDigitChar = true :=
      List.all_eq_true.mpr hall
    rw [i64Parse_eq (natDigits i.toNat)
      (natDigits_no_sign _ '-' (Or.inl rfl))
      (natDigits_no_sign _ '+' (Or.inr (Or.inl rfl))), h1, h2, hval]
    have hv : ((i.toNat : Nat) : Int) = i := by omega
    rw [hv]
    simp [hlo, hhi]

/-- A string accepted by `i64Parse` is nonempty and free of the five
structural characters. -/
theorem i64Parse_some_shape (s : Str) (v : Int) (h : i64Parse s = some v) :
    s ≠ [] ∧ ∀ c ∈ s, isSpecialChar c = false := by
  cases s with
  | nil =>
      rw [show i64Parse ([] : Str) = none from rfl] at h
      exact Option.noConfusion h
  | cons a t =>
      refine ⟨by simp, ?_⟩
      by_cases ha : a = '-'
      · subst ha
        rw [i64Parse_neg_eq] at h
        by_cases he : t.isEmpty
        · rw [if_pos he] at h; exact Option.noConfusion h
        · by_cases hd : t.all isDigitChar
          · intro c hc
            rcases List.mem_cons.mp hc with rfl | hc
            · decide
            · exact digit_not_special c (List.all_eq_true.mp hd c hc)
          · rw [if_neg (by simp [he]), if_neg (by simp [hd])] at h
            exact Option.noConfusion h
      · by_cases hb : a = '+'
        · subst hb
          rw [i64Parse_plus_eq] at h
          by_cases he : t.isEmpty
          · rw [if_pos he] at h; exact Option.noConfusion h
          · by_cases hd : t.all isDigitChar
            · intro c hc
              rcases List.mem_cons.mp hc with rfl | hc
              · decide
              · exact digit_not_special c (List.all_eq_true.mp hd c hc)
            · rw [if_neg (by simp [he]), if_neg (by simp [hd])] at h
              exact Option.noConfusion h
        · rw [i64Parse_eq (a :: t)
            (fun rest heq => ha (List.cons.injEq a t '-' rest ▸ heq).1)
            (fun rest heq => hb (List.cons.injEq a t '+' rest ▸ heq).1)] at h
          by_cases hd : (a :: t).all isDigitChar
          · intro c hc
            exact digit_not_special c (List.all_eq_true.mp hd c hc)
          · rw [if_neg (by simp), if_neg (by simp [hd])] at h
            exact Option.noConfusion h

end Structpath
namespace Structpath

/-- The variable names a segment list registers, in order. -/
def varNamesOf : List Segment → List Str
  | [] => []
  | .keyVariable n :: rest => n :: varNamesOf rest
  | .indexVariable n :: rest => n :: varNamesOf rest
  | .key _ :: rest => varNamesOf rest
  | .index _ :: rest => varNamesOf rest

theorem varNamesOf_cons (seg : Segment) (rest : List Segment) :
    varNamesOf (seg :: rest) = varNamesOf [seg] ++ varNamesOf rest := by
  cases seg with
  | key k => simp [varNamesOf]
  | index n => simp [varNamesOf]
  | keyVariable n => simp [varNamesOf]
  | indexVariable n => simp [varNamesOf]

/-- Segments whose rendering survives a parse round-trip: string keys are
nonempty, integer keys fit in `i64`, indices fit in `usize`, and variable
names are nonempty and avoid the characters that terminate their segment. -/
def validSeg : Segment → Bool
  | .key (.string s) => !s.isEmpty
  | .key (.int i) => decide (i64Min ≤ i) && decide (i ≤ i64Max)
  | .index n => decide (n ≤ usizeMax)
  | .keyVariable x =>
      !x.isEmpty && x.all (fun c => !(c = '.' || c = '[' || c = '\\'))
  | .indexVariable x => !x.isEmpty && x.all (fun c => !(c = ']' || c = '\\'))

/-- A path extended by trailing segments, registering their variables. -/
def extendPath (P : Structpath) (segs : List Segment) : Structpath :=
  ⟨P.segments ++ segs, P.variable_names ++ varNamesOf segs⟩

/-- The parser state between segments: nothing pending. -/
def cleanSt (P : Structpath) : PState := ⟨P, [], false, false, false, false, false⟩

/-- The parser's end-of-input flush (also run by `.` and `[`). -/
def flushSt (st : PState) : Except StructpathError Structpath :=
  if st.cur.isEmpty then .ok st.path
  else process_segment st.path st.cur st.fce st.ies st.isv st.inB

/-- Invariant tying a mid-parse state to the path it denotes: outside
brackets, no pending escape, flushing yields `P`, and an empty pending
segment means the state is exactly clean. -/
def Ready (st : PState) (P : Structpath) : Prop :=
  st.inB = false ∧ st.esc = false ∧ flushSt st = .ok P ∧
    (st.cur = [] → st = cleanSt P)

theorem Ready_clean (P : Structpath) : Ready (cleanSt P) P :=
  ⟨rfl, rfl, rfl, fun _ => rfl⟩

/-- A non-structural character is simply appended to the pending segment. -/
theorem pstep_plain (st : PState) (c : Char) (hesc : st.esc = false)
    (hc : isSpecialChar c = false) :
    pstep st c = .ok { st with cur := st.cur ++ [c] } := by
  simp only [isSpecialChar, Bool.or_eq_false_iff, decide_eq_false_iff_not] at hc
  obtain ⟨⟨⟨⟨h1, h2⟩, h3⟩, h4⟩, h5⟩ := hc
  simp [pstep, hesc, h1, h2, h3, h4, h5]

/-- Consuming plain text appends it to the pending segment. -/
theorem consume_plain (x : Str) (hx : ∀ c ∈ x, isSpecialChar c = false) :
    ∀ st : PState, st.esc = false →
      List.foldlM pstep st x = .ok { st with cur := st.cur ++ x } := by
  induction x with
  | nil =>
      intro st hesc
      rw [List.foldlM_nil, List.append_nil]
      rfl
  | cons c rest ih =>
      intro st hesc
      rw [List.foldlM_cons,
        pstep_plain st c hesc (hx c (List.mem_cons_self _ _))]
      simp only [except_ok_bind]
      rw [ih (fun d hd => hx d (List.mem_cons_of_mem _ hd))
        { st with cur := st.cur ++ [c] } hesc]
      simp [List.append_assoc]

/-- Outside brackets with a nonempty pending segment, any character other
than `.`, `[`, `\` is appended literally. -/
theorem consume_plain_out (x : Str)
    (hx : ∀ c ∈ x, c ≠ '.' ∧ c ≠ '[' ∧ c ≠ '\\') :
    ∀ st : PState, st.esc = false → st.inB = false → st.cur ≠ [] →
      List.foldlM pstep st x = .ok { st with cur := st.cur ++ x } := by
  induction x with
  | nil =>
      intro st hesc hinB hcur
      rw [List.foldlM_nil, List.append_nil]
      rfl
  | cons c rest ih =>
      intro st hesc hinB hcur
      obtain ⟨h1, h2, h3⟩ := hx c (List.mem_cons_self _ _)
      obtain ⟨a, l, hal⟩ : ∃ a l, st.cur = a :: l := by
        cases hc : st.cur with
        | nil => exact absurd hc hcur
        | cons a l => exact ⟨a, l, rfl⟩
      have hstep : pstep st c = .ok { st with cur := st.cur ++ [c] } := by
        simp [pstep, hesc, hinB, h1, h2, h3, hal]
      rw [List.foldlM_cons, hstep]
      simp only [except_ok_bind]
      rw [ih (fun d hd => hx d (List.mem_cons_of_mem _ hd))
        { st with cur := st.cur ++ [c] } hesc hinB (by simp [hal])]
      simp [List.append_assoc]

/-- Text with no structural characters needs no escapes. -/
theorem escape_nonspecial (s : Str) (hs : ∀ c ∈ s, isSpecialChar c = false) :
    escape_special_chars s = s := by
  induction s with
  | nil => rfl
  | cons c rest ih =>
      have heq : escape_special_chars (c :: rest) =
          (if isSpecialChar c then ['\\', c] else [c]) ++
            escape_special_chars rest := by
        simp [escape_special_chars]
      rw [heq, hs c (List.mem_cons_self _ _),
        ih (fun d hd => hs d (List.mem_cons_of_mem _ hd))]
      simp

/-- Consuming the escaped rendering of `s` appends `s` itself to the
pending segment, for some final values of the two escape flags. -/
theorem consume_escape_chars (s : Str) :
    ∀ st : PState, st.esc = false →
      ∃ fc ie : Bool, List.foldlM pstep st (escape_special_chars s) =
        .ok ⟨st.path, st.cur ++ s, st.inB, false, ie, fc, st.isv⟩ := by
  induction s with
  | nil =>
      intro st hesc
      refine ⟨st.fce, st.ies, ?_⟩
      rw [show escape_special_chars [] = [] from rfl, List.foldlM_nil,
        List.append_nil, ← hesc]
      rfl
  | cons c rest ih =>
      intro st hesc
      have heq : escape_special_chars (c :: rest) =
          (if isSpecialChar c then ['\\', c] else [c]) ++
            escape_special_chars rest := by
        simp [escape_special_chars]
      rw [heq]
      by_cases hsp : isSpecialChar c = true
      · rw [if_pos hsp]
        simp only [List.cons_append, List.nil_append]
        have h1 : pstep st '\\' = .ok { st with esc := true } := by
          simp [pstep, hesc]
        have h2 : pstep { st with esc := true } c =
            .ok ⟨st.path, st.cur ++ [c], st.inB, false, true,
              (if byteLen (st.cur ++ [c]) = 1 then true else st.fce), st.isv⟩ := by
          simp [pstep]
        rw [List.foldlM_cons, h1]
        simp only [except_ok_bind]
        rw [List.foldlM_cons, h2]
        simp only [except_ok_bind]
        obtain ⟨fc, ie, hrest⟩ := ih ⟨st.path, st.cur ++ [c], st.inB, false, true,
          (if byteLen (st.cur ++ [c]) = 1 then true else st.fce), st.isv⟩ rfl
        refine ⟨fc, ie, ?_⟩
        rw [hrest]
        simp [List.append_assoc]
      · have hc : isSpecialChar c = false := by
          revert hsp; cases isSpecialChar c <;> simp
        rw [if_neg hsp]
        simp only [List.cons_append, List.nil_append]
        rw [List.foldlM_cons, pstep_plain st c hesc hc]
        simp only [except_ok_bind]
        obtain ⟨fc, ie, hrest⟩ := ih { st with cur := st.cur ++ [c] } hesc
        refine ⟨fc, ie, ?_⟩
        rw [hrest]
        simp [List.append_assoc]

end Structpath
namespace Structpath

/-- From a ready state, `.` flushes the pending segment (or does nothing)
and leaves the clean state for the flushed path. -/
theorem pstep_dot (st : PState) (P : Structpath) (h : Ready st P) :
    pstep st '.' = .ok (cleanSt P) := by
  obtain ⟨hinB, hesc, hfl, hclean⟩ := h
  cases hcur : st.cur with
  | nil =>
      rw [hclean hcur]
      rfl
  | cons a l =>
      rw [flushSt, hcur] at hfl
      simp only [List.isEmpty_cons, Bool.false_eq_true, if_false] at hfl
      obtain ⟨pa, cu, ib, es, ie, fc, iv⟩ := st
      simp only at hinB hesc hcur
      subst hinB
      subst hesc
      subst hcur
      simp only [pstep, hfl]
      rfl
  
/-- From a ready state, `[` flushes the pending segment (or does nothing)
and enters bracket mode over the flushed path. -/
theorem pstep_lbracket (st : PState) (P : Structpath) (h : Ready st P) :
    pstep st '[' = .ok ⟨P, [], true, false, false, false, false⟩ := by
  obtain ⟨hinB, hesc, hfl, hclean⟩ := h
  cases hcur : st.cur with
  | nil =>
      rw [hclean hcur]
      rfl
  | cons a l =>
      rw [flushSt, hcur] at hfl
      simp only [List.isEmpty_cons, Bool.false_eq_true, if_false] at hfl
      obtain ⟨pa, cu, ib, es, ie, fc, iv⟩ := st
      simp only at hinB hesc hcur
      subst hinB
      subst hesc
      subst hcur
      simp only [pstep, hfl]
      rfl

/-- The optional `.` separator takes a ready state to the clean state. -/
theorem consume_sep (f : Bool) (st : PState) (P : Structpath)
    (hr : Ready st P) (hf : f = true → st.cur = []) :
    List.foldlM pstep st (if f then ([] : Str) else ['.']) =
      .ok (cleanSt P) := by
  cases f with
  | true =>
      show List.foldlM pstep st [] = .ok (cleanSt P)
      rw [List.foldlM_nil, hr.2.2.2 (hf rfl)]
      rfl
  | false =>
      show List.foldlM pstep st ['.'] = .ok (cleanSt P)
      rw [List.foldlM_cons, pstep_dot st P hr]
      simp only [except_ok_bind, List.foldlM_nil]
      rfl

end Structpath
namespace Structpath

/-- Consuming a rendered string key from the clean state leaves the key
text pending with flag values that classify it back to a string key. -/
theorem consume_renderStringKey (s : Str) (hne : s ≠ []) (P : Structpath) :
    ∃ b1 b2 : Bool, List.foldlM pstep (cleanSt P) (renderStringKey s) =
      .ok ⟨P, s, false, false, b2, b1, false⟩ ∧
      process_segment P s b1 b2 false false = .ok (P.push_string_key s) := by
  unfold renderStringKey
  cases hip : i64Parse s with
  | none =>
      show ∃ b1 b2 : Bool,
        List.foldlM pstep (cleanSt P) (escape_special_chars s) =
          .ok ⟨P, s, false, false, b2, b1, false⟩ ∧ _
      obtain ⟨b1, b2, hfold⟩ := consume_escape_chars s (cleanSt P) rfl
      refine ⟨b1, b2, hfold, ?_⟩
      cases b1 <;> cases b2 <;> simp [process_segment, hip]
  | some v =>
      obtain ⟨hne', hns⟩ := i64Parse_some_shape s v hip
      obtain ⟨c0, s', rfl⟩ : ∃ a l, s = a :: l := by
        cases hs : s with
        | nil => exact absurd hs hne
        | cons a l => exact ⟨a, l, rfl⟩
      rw [escape_nonspecial _ hns]
      show ∃ b1 b2 : Bool,
        List.foldlM pstep (cleanSt P) ('\\' :: c0 :: s') =
          .ok ⟨P, c0 :: s', false, false, b2, b1, false⟩ ∧ _
      have h1 : pstep (cleanSt P) '\\' = .ok { cleanSt P with esc := true } := rfl
      have h2 : pstep { cleanSt P with esc := true } c0 =
          .ok ⟨P, [c0], false, false, true,
            (if byteLen [c0] = 1 then true else false), false⟩ := rfl
      rw [List.foldlM_cons, h1]
      simp only [except_ok_bind]
      rw [List.foldlM_cons, h2]
      simp only [except_ok_bind]
      rw [consume_plain s' (fun d hd => hns d (List.mem_cons_of_mem _ hd))
        ⟨P, [c0], false, false, true,
          (if byteLen [c0] = 1 then true else false), false⟩ rfl]
      refine ⟨(if byteLen [c0] = 1 then true else false), true, rfl, ?_⟩
      simp [process_segment]

/-- Every character of a rendered integer is a digit or the minus sign. -/
theorem intRender_chars (i : Int) :
    ∀ c ∈ intRender i, isDigitChar c = true ∨ c = '-' := by
  unfold intRender
  split
  · intro c hc
    rcases List.mem_cons.mp hc with rfl | hc
    · exact Or.inr rfl
    · exact Or.inl ((natDigits_spec _).2.1 c hc)
  · intro c hc
    exact Or.inl ((natDigits_spec _).2.1 c hc)

/-- A rendered integer is nonempty. -/
theorem intRender_ne_nil (i : Int) : intRender i ≠ [] := by
  unfold intRender
  split
  · simp
  · exact (natDigits_spec _).1

/-- A rendered integer contains no structural characters. -/
theorem intRender_nonspecial (i : Int) :
    ∀ c ∈ intRender i, isSpecialChar c = false := by
  intro c hc
  rcases intRender_chars i c hc with hd | rfl
  · exact digit_not_special c hd
  · decide

end Structpath
namespace Structpath

/-- Consuming one rendered segment from a ready state yields a ready state
for the path extended by that segment. -/
theorem consume_one (seg : Segment) (f : Bool) (st : PState) (P : Structpath)
    (hr : Ready st P) (hf : f = true → st.cur = [])
    (hv : validSeg seg = true)
    (hn : ∀ n ∈ varNamesOf [seg], n ∉ P.variable_names) :
    ∃ st1 : PState, List.foldlM pstep st (renderSeg f seg) = .ok st1 ∧
      Ready st1 (extendPath P [seg]) ∧
      (firstAfter f seg = true → st1.cur = []) := by
  cases seg with
  | key k =>
    cases k with
    | string s =>
        have hne : s ≠ [] := by
          intro h
          subst h
          revert hv
          decide
        simp only [renderSeg]
        rw [List.foldlM_append, consume_sep f st P hr hf]
        simp only [except_ok_bind]
        obtain ⟨b1, b2, hfold, hflush⟩ := consume_renderStringKey s hne P
        rw [hfold]
        refine ⟨⟨P, s, false, false, b2, b1, false⟩, rfl, ?_, ?_⟩
        · refine ⟨rfl, rfl, ?_, fun h => absurd h hne⟩
          rw [flushSt]
          dsimp only
          obtain ⟨a, l, rfl⟩ : ∃ a l, s = a :: l := by
            cases hs : s with
            | nil => exact absurd hs hne
            | cons a l => exact ⟨a, l, rfl⟩
          simp only [List.isEmpty_cons, Bool.false_eq_true, if_false]
          rw [hflush]
          simp [extendPath, varNamesOf, push_string_key]
        · intro h
          simp [firstAfter] at h
    | int i =>
        have hrange : i64Min ≤ i ∧ i ≤ i64Max := by
          simp only [validSeg, Bool.and_eq_true, decide_eq_true_eq] at hv
          exact hv
        simp only [renderSeg]
        rw [List.foldlM_append, consume_sep f st P hr hf]
        simp only [except_ok_bind]
        rw [consume_plain (intRender i) (intRender_nonspecial i) (cleanSt P) rfl]
        refine ⟨⟨P, intRender i, false, false, false, false, false⟩, rfl, ?_, ?_⟩
        · refine ⟨rfl, rfl, ?_, fun h => absurd h (intRender_ne_nil i)⟩
          rw [flushSt]
          dsimp only
          obtain ⟨a, l, hal⟩ : ∃ a l, intRender i = a :: l := by
            cases hs : intRender i with
            | nil => exact absurd hs (intRender_ne_nil i)
            | cons a l => exact ⟨a, l, rfl⟩
          rw [hal]
          simp only [List.isEmpty_cons, Bool.false_eq_true, if_false]
          rw [← hal]
          simp [process_segment, i64Parse_intRender i hrange.1 hrange.2,
            extendPath, varNamesOf, push_int_key]
        · intro h
          simp [firstAfter] at h
  | index n =>
      have hn' : n ≤ usizeMax := by
        simp only [validSeg, decide_eq_true_eq] at hv
        exact hv
      simp only [renderSeg]
      rw [List.foldlM_append, List.foldlM_cons, pstep_lbracket st P hr]
      simp only [except_ok_bind]
      have hdig : ∀ c ∈ natDigits n, c ≠ ']' ∧ c ≠ '\\' := by
        intro c hc
        have hd := (natDigits_spec n).2.1 c hc
        constructor <;> rintro rfl <;> revert hd <;> decide
      rw [consume_in_brackets (natDigits n) hdig
        ⟨P, [], true, false, false, false, false⟩ rfl rfl]
      simp only [except_ok_bind]
      rw [List.foldlM_cons]
      have hsw : startsWithHashLong (natDigits n) = false := by
        obtain ⟨d, ds, hd⟩ : ∃ d ds, natDigits n = d :: ds := by
          cases hs : natDigits n with
          | nil => exact absurd hs (natDigits_spec n).1
          | cons a l => exact ⟨a, l, rfl⟩
        rw [hd]
        refine startsWithHashLong_eq_false d ds ?_
        have hdd := (natDigits_spec n).2.1 d
          (by rw [hd]; exact List.mem_cons_self _ _)
        rintro rfl
        revert hdd
        decide
      have h4 : pstep ⟨P, [] ++ natDigits n, true, false, false, false, false⟩ ']' =
          .ok ⟨P.push_index n, [], false, false, false, false, false⟩ := by
        simp [pstep, hsw, u64Parse_natDigits n hn']
      rw [h4]
      simp only [except_ok_bind, List.foldlM_nil]
      refine ⟨⟨P.push_index n, [], false, false, false, false, false⟩, rfl,
        ?_, fun h => rfl⟩
      have hext : extendPath P [Segment.index n] = P.push_index n := by
        simp [extendPath, varNamesOf, push_index]
      rw [hext]
      exact Ready_clean _
  | keyVariable x =>
      have hvx : x ≠ [] ∧ ∀ c ∈ x, c ≠ '.' ∧ c ≠ '[' ∧ c ≠ '\\' := by
        simp only [validSeg, Bool.and_eq_true, Bool.not_eq_true',
          List.all_eq_true] at hv
        obtain ⟨h1, h2⟩ := hv
        constructor
        · intro h
          subst h
          revert h1
          decide
        · intro c hc
          have h3 := h2 c hc
          simp only [Bool.not_eq_true', Bool.or_eq_false_iff,
            decide_eq_false_iff_not] at h3
          exact ⟨h3.1.1, h3.1.2, h3.2⟩
      obtain ⟨hne, hchars⟩ := hvx
      simp only [renderSeg]
      rw [List.foldlM_append, consume_sep f st P hr hf]
      simp only [except_ok_bind]
      rw [List.foldlM_cons]
      have h1 : pstep (cleanSt P) '#' =
          .ok ⟨P, ['#'], false, false, false, false, true⟩ := rfl
      rw [h1]
      simp only [except_ok_bind]
      rw [consume_plain_out x hchars ⟨P, ['#'], false, false, false, false, true⟩
        rfl rfl (by simp)]
      refine ⟨⟨P, '#' :: x, false, false, false, false, true⟩, rfl, ?_, ?_⟩
      · refine ⟨rfl, rfl, ?_, fun h => absurd h (List.cons_ne_nil _ _)⟩
        rw [flushSt]
        dsimp only
        simp only [List.isEmpty_cons, Bool.false_eq_true, if_false]
        obtain ⟨x0, xr, rfl⟩ : ∃ a l, x = a :: l := by
          cases hs : x with
          | nil => exact absurd hs hne
          | cons a l => exact ⟨a, l, rfl⟩
        have hnx : x0 :: xr ∉ P.variable_names :=
          hn (x0 :: xr) (by simp [varNamesOf])
        simp [process_segment, startsWithHashLong, push_key_variable, hnx,
          extendPath, varNamesOf]
      · intro h
        simp [firstAfter] at h
  | indexVariable x =>
      have hvx : x ≠ [] ∧ ∀ c ∈ x, c ≠ ']' ∧ c ≠ '\\' := by
        simp only [validSeg, Bool.and_eq_true, Bool.not_eq_true',
          List.all_eq_true] at hv
        obtain ⟨h1, h2⟩ := hv
        constructor
        · intro h
          subst h
          revert h1
          decide
        · intro c hc
          have h3 := h2 c hc
          simp only [Bool.not_eq_true', Bool.or_eq_false_iff,
            decide_eq_false_iff_not] at h3
          exact ⟨h3.1, h3.2⟩
      obtain ⟨hne, hchars⟩ := hvx
      simp only [renderSeg]
      rw [List.foldlM_append, List.foldlM_cons, pstep_lbracket st P hr]
      simp only [except_ok_bind]
      rw [List.foldlM_cons]
      have h1 : pstep ⟨P, [], true, false, false, false, false⟩ '#' =
          .ok ⟨P, ['#'], true, false, false, false, false⟩ := rfl
      rw [h1]
      simp only [except_ok_bind]
      rw [consume_in_brackets x hchars ⟨P, ['#'], true, false, false, false, false⟩
        rfl rfl]
      simp only [except_ok_bind]
      rw [List.foldlM_cons]
      obtain ⟨x0, xr, rfl⟩ : ∃ a l, x = a :: l := by
        cases hs : x with
        | nil => exact absurd hs hne
        | cons a l => exact ⟨a, l, rfl⟩
      have hnx : x0 :: xr ∉ P.variable_names :=
        hn (x0 :: xr) (by simp [varNamesOf])
      have h4 : pstep ⟨P, ['#'] ++ (x0 :: xr), true, false, false, false, false⟩ ']' =
          .ok ⟨⟨P.segments ++ [.indexVariable (x0 :: xr)],
            P.variable_names ++ [x0 :: xr]⟩, [], false, false, false, false, false⟩ := by
        simp [pstep, startsWithHashLong, push_index_variable, hnx]
      rw [h4]
      simp only [except_ok_bind, List.foldlM_nil]
      refine ⟨⟨⟨P.segments ++ [Segment.indexVariable (x0 :: xr)],
        P.variable_names ++ [x0 :: xr]⟩, [], false, false, false, false, false⟩,
        rfl, ?_, fun h => rfl⟩
      have hext : extendPath P [Segment.indexVariable (x0 :: xr)] =
          ⟨P.segments ++ [.indexVariable (x0 :: xr)],
            P.variable_names ++ [x0 :: xr]⟩ := by
        simp [extendPath, varNamesOf]
      rw [hext]
      exact Ready_clean _

end Structpath
namespace Structpath

theorem extendPath_nil (P : Structpath) : extendPath P [] = P := by
  simp [extendPath, varNamesOf]

theorem extendPath_cons (P : Structpath) (seg : Segment)
    (rest : List Segment) :
    extendPath (extendPath P [seg]) rest = extendPath P (seg :: rest) := by
  simp only [extendPath, List.append_assoc, List.singleton_append]
  rw [varNamesOf_cons seg rest]

/-- Consuming the rendering of a whole valid segment list from a ready
state yields a ready state for the extended path. -/
theorem consume_segs (segs : List Segment) :
    ∀ (st : PState) (P : Structpath) (f : Bool),
      Ready st P → (f = true → st.cur = []) →
      (∀ s ∈ segs, validSeg s = true) →
      (P.variable_names ++ varNamesOf segs).Nodup →
      ∃ st1 : PState, List.foldlM pstep st (renderSegs f segs) = .ok st1 ∧
        Ready st1 (extendPath P segs) := by
  induction segs with
  | nil =>
      intro st P f hr hf hv hnd
      refine ⟨st, by rw [renderSegs]; exact List.foldlM_nil _ _, ?_⟩
      rw [extendPath_nil]
      exact hr
  | cons seg rest ih =>
      intro st P f hr hf hv hnd
      rw [varNamesOf_cons] at hnd
      simp only [renderSegs]
      rw [List.foldlM_append]
      obtain ⟨st1, h1, hr1, hf1⟩ :=
        consume_one seg f st P hr hf (hv seg (List.mem_cons_self _ _))
          (fun n hn hmem =>
            (List.nodup_append.mp hnd).2.2 hmem (List.mem_append_left _ hn))
      rw [h1]
      simp only [except_ok_bind]
      have hnd2 : ((extendPath P [seg]).variable_names ++ varNamesOf rest).Nodup := by
        show ((P.variable_names ++ varNamesOf [seg]) ++ varNamesOf rest).Nodup
        rw [List.append_assoc]
        exact hnd
      obtain ⟨st2, h2, hr2⟩ := ih st1 (extendPath P [seg]) (firstAfter f seg)
        hr1 hf1 (fun s hs => hv s (List.mem_cons_of_mem _ hs)) hnd2
      refine ⟨st2, h2, ?_⟩
      rw [extendPath_cons] at hr2
      exact hr2

end Structpath
namespace Structpath

/-- **C1, counterexample.**  The round-trip law fails on a path built by
the public builder: `push_string_key("")` renders as just `$`, which parses
back to the empty path, not to the one-segment path. -/
theorem C1_counterexample :
    parse (to_string (Structpath.new.push_string_key [])) ≠
      .ok (Structpath.new.push_string_key []) := by
  intro h
  have h0 : parse (to_string (Structpath.new.push_string_key [])) =
      .ok Structpath.new := rfl
  rw [h0] at h
  simp [Structpath.new, Structpath.push_string_key] at h

/-- **C1, amended.**  Formatting and re-parsing is the identity on every
path whose variable-name register matches its segments and is
duplicate-free and whose segments are valid: string keys nonempty, integer
keys within the `i64` range, indices within the `usize` range, key-variable
names nonempty and free of `.`, `[`, `\`, and index-variable names nonempty
and free of `]`, `\`. -/
theorem C1_roundtrip_amended (p : Structpath)
    (hv : p.variable_names = varNamesOf p.segments)
    (hnd : p.variable_names.Nodup)
    (hs : ∀ s ∈ p.segments, validSeg s = true) :
    parse (to_string p) = .ok p := by
  obtain ⟨segs, names⟩ := p
  simp only at hv hnd hs
  subst hv
  obtain ⟨st1, hfold, hready⟩ := consume_segs segs initState Structpath.new true
    (Ready_clean Structpath.new) (fun _ => rfl) hs hnd
  have hstep : parse (to_string ⟨segs, varNamesOf segs⟩) = (do
      let st ← (renderSegs true segs).foldlM pstep initState
      let q ←
        if st.cur.isEmpty then .ok st.path
        else process_segment st.path st.cur st.fce st.ies st.isv st.inB
      if st.inB then .error (.parseError (chars "Unclosed bracket"))
      else .ok q : Except StructpathError Structpath) := rfl
  rw [hstep, hfold]
  simp only [except_ok_bind]
  obtain ⟨hinB, hesc, hfl, hclean⟩ := hready
  rw [hinB]
  simp only [Bool.false_eq_true, if_false]
  have h3 : (st1.path.process_segment st1.cur st1.fce st1.ies st1.isv false >>=
      fun y => Except.ok y) =
      st1.path.process_segment st1.cur st1.fce st1.ies st1.isv false := by
    cases hps : st1.path.process_segment st1.cur st1.fce st1.ies st1.isv false <;>
      rfl
  rw [h3]
  simp only [flushSt] at hfl
  rw [hinB] at hfl
  rw [hfl]
  rfl

/-- Concrete instance of the amended round-trip law: a path exercising all
five segment forms survives formatting and re-parsing. -/
theorem C1_roundtrip_amended_witness :
    (∀ s ∈ ([.key (.string (chars "a")), .index 0,
        .keyVariable (chars "v"), .indexVariable (chars "i"),
        .key (.int 456)] : List Segment), validSeg s = true) ∧
    parse (to_string ⟨[.key (.string (chars "a")), .index 0,
        .keyVariable (chars "v"), .indexVariable (chars "i"),
        .key (.int 456)], [chars "v", chars "i"]⟩) =
      .ok ⟨[.key (.string (chars "a")), .index 0,
        .keyVariable (chars "v"), .indexVariable (chars "i"),
        .key (.int 456)], [chars "v", chars "i"]⟩ :=
  ⟨by decide,
   C1_roundtrip_amended ⟨[.key (.string (chars "a")), .index 0,
      .keyVariable (chars "v"), .indexVariable (chars "i"),
      .key (.int 456)], [chars "v", chars "i"]⟩ rfl (by decide) (by decide)⟩

end Structpath
